import Mathlib

/-!
Verification development for the ReleaseCopilot ingestion-and-correlation core.

Shallow embedding of:
- `src/matcher/link_rules.py` (story-key extraction),
- `src/matcher/engine.py` plus the spec-modelled `processors.audit_processor`,
- `src/releasecopilot/jira/signature.py` (webhook signature verification),
- `src/releasecopilot/ingest/storage.py` (SQLite commit store),
- `src/releasecopilot/ingest/bitbucket_webhooks.py` (Bitbucket webhook handler),
- `services/jira_sync_webhook/handler.py` (Jira webhook handler and DynamoDB store).

Python strings are modelled as Lean `String`/`List Char` with ASCII case
conversion; machine-level datetime formatting and the HMAC-SHA256 digest are
treated as opaque inputs (they are stdlib collaborators whose outputs the
verified code only transports).
-/

namespace RC

/-! ### Character classes

The story-key pattern is `[A-Z][A-Z0-9]+-\d+` (`STORY_KEY_RE` in
`src/matcher/link_rules.py`). These classes are over code points, matching
Python `re` on the (ASCII) strings the pattern can ever accept.
-/

def isUpperAlpha (c : Char) : Bool := 65 ≤ c.toNat && c.toNat ≤ 90

def isDigitCh (c : Char) : Bool := 48 ≤ c.toNat && c.toNat ≤ 57

def isKeyChar (c : Char) : Bool := isUpperAlpha c || isDigitCh c

/-- ASCII uppercasing of one character, the effect of Python `str.upper` on
the ASCII range (non-ASCII case variants are immaterial to the key pattern). -/
def pyUpperChar (c : Char) : Char :=
  if 97 ≤ c.toNat ∧ c.toNat ≤ 122 then Char.ofNat (c.toNat - 32) else c

/-- ASCII whitespace stripped by Python `str.strip`. -/
def isWsCh (c : Char) : Bool :=
  c.toNat = 32 || c.toNat = 9 || c.toNat = 10 || c.toNat = 13 || c.toNat = 11 || c.toNat = 12

def pyUpper (l : List Char) : List Char := l.map pyUpperChar

/-- Python `str.strip`: drop leading and trailing whitespace. -/
def pyStrip (l : List Char) : List Char :=
  ((l.dropWhile isWsCh).reverse.dropWhile isWsCh).reverse

/-! ### The regex scanner

`re.findall` for the pattern `[A-Z][A-Z0-9]+-\d+`: scan left to right, at each
position attempt a match, and resume after the end of a match. Because `-` is
not in `[A-Z0-9]` and nothing follows `\d+`, the greedy quantifiers never
backtrack: the maximal `[A-Z0-9]` run is the only candidate that can be
followed by `-`, and the digit run is maximal.
-/

/-- Attempt to match `[A-Z][A-Z0-9]+-\d+` at the head of the list; on success
return the matched characters and the remainder of the input. -/
def tryMatch (l : List Char) : Option (List Char × List Char) :=
  match l with
  | [] => none
  | c :: rest =>
    if isUpperAlpha c then
      let run := rest.takeWhile isKeyChar
      let rest2 := rest.dropWhile isKeyChar
      if run.isEmpty then none
      else
        match rest2 with
        | [] => none
        | d :: rest3 =>
          if d = '-' then
            let digits := rest3.takeWhile isDigitCh
            if digits.isEmpty then none
            else some (c :: (run ++ d :: digits), rest3.dropWhile isDigitCh)
          else none
    else none

theorem length_dropWhile_le (p : Char → Bool) (l : List Char) :
    (l.dropWhile p).length ≤ l.length := by
  induction l with
  | nil => simp
  | cons c rest ih =>
    by_cases hc : p c
    · simp only [List.dropWhile_cons, hc, if_true, List.length_cons]
      omega
    · simp [List.dropWhile_cons, hc]

theorem tryMatch_length_lt {l : List Char} {m r : List Char}
    (h : tryMatch l = some (m, r)) : r.length < l.length := by
  match l with
  | [] => simp [tryMatch] at h
  | c :: rest =>
    simp only [tryMatch] at h
    by_cases hc : isUpperAlpha c
    · simp only [hc, if_true] at h
      by_cases hrun : (rest.takeWhile isKeyChar).isEmpty
      · simp [hrun] at h
      · simp only [hrun, Bool.false_eq_true, if_false] at h
        match hdrop : rest.dropWhile isKeyChar with
        | [] => rw [hdrop] at h; simp at h
        | d :: rest3 =>
          rw [hdrop] at h
          dsimp only at h
          by_cases hd : d = '-'
          · simp only [hd, if_true] at h
            by_cases hdig : (rest3.takeWhile isDigitCh).isEmpty
            · simp [hdig] at h
            · simp only [hdig, Bool.false_eq_true, if_false, Option.some.injEq,
                Prod.mk.injEq] at h
              have hr : r = rest3.dropWhile isDigitCh := h.2.symm
              have h1 : (rest3.dropWhile isDigitCh).length ≤ rest3.length :=
                length_dropWhile_le isDigitCh rest3
              have h2 : (d :: rest3).length ≤ rest.length := by
                rw [← hdrop]; exact length_dropWhile_le isKeyChar rest
              simp only [List.length_cons] at h2
              subst hr
              simp only [List.length_cons]
              omega
          · simp [hd] at h
    · simp [hc] at h

/-- Fuel-indexed scanner; the fuel is an upper bound on the input length, so
`findAllAux l.length l` computes `re.findall` exactly (structural recursion on
the fuel keeps the definition kernel-reducible). -/
def findAllAux : Nat → List Char → List (List Char)
  | 0, _ => []
  | _, [] => []
  | fuel + 1, c :: rest =>
    match tryMatch (c :: rest) with
    | some (m, rest2) => m :: findAllAux fuel rest2
    | none => findAllAux fuel rest

/-- All matches of `STORY_KEY_RE` in first-to-last order (`re.findall`). -/
def findAll (l : List Char) : List (List Char) :=
  findAllAux l.length l

theorem findAllAux_stable :
    ∀ (n : Nat) (l : List Char), l.length ≤ n → ∀ m, l.length ≤ m →
      findAllAux n l = findAllAux m l := by
  intro n
  induction n with
  | zero =>
    intro l hl m hm
    have : l = [] := List.length_eq_zero.mp (Nat.le_zero.mp hl)
    subst this
    cases m <;> simp [findAllAux]
  | succ n ih =>
    intro l hl m hm
    match l with
    | [] => cases m <;> simp [findAllAux]
    | c :: rest =>
      match m with
      | 0 => simp at hm
      | m + 1 =>
        simp only [findAllAux]
        match htm : tryMatch (c :: rest) with
        | some (mt, rest2) =>
          have hlt := tryMatch_length_lt htm
          simp only [List.length_cons] at hl hm hlt
          have h1 : rest2.length ≤ n := by omega
          have h2 : rest2.length ≤ m := by omega
          show mt :: findAllAux n rest2 = mt :: findAllAux m rest2
          rw [ih rest2 h1 m h2]
        | none =>
          simp only [List.length_cons] at hl hm
          have h1 : rest.length ≤ n := by omega
          have h2 : rest.length ≤ m := by omega
          show findAllAux n rest = findAllAux m rest
          rw [ih rest h1 m h2]

theorem findAll_nil : findAll [] = [] := by
  simp [findAll, findAllAux]

theorem findAll_cons_some {c : Char} {rest m r : List Char}
    (h : tryMatch (c :: rest) = some (m, r)) :
    findAll (c :: rest) = m :: findAll r := by
  have hlt := tryMatch_length_lt h
  simp only [List.length_cons] at hlt
  simp only [findAll, List.length_cons, findAllAux, h]
  rw [findAllAux_stable rest.length r (by omega) r.length (le_refl _)]

theorem findAll_cons_none {c : Char} {rest : List Char}
    (h : tryMatch (c :: rest) = none) :
    findAll (c :: rest) = findAll rest := by
  simp only [findAll, List.length_cons, findAllAux, h]

/-! ### Embedding of `src/matcher/link_rules.py` -/

/-- Accumulate keys that are not already present, preserving order: the
`if match not in seen: seen.append(match)` loop shape used throughout
`link_rules.py` (and `dict.fromkeys` in `storage.py`). -/
def appendUnique (acc : List String) : List String → List String
  | [] => acc
  | k :: ks => if k ∈ acc then appendUnique acc ks else appendUnique (acc ++ [k]) ks

/-- `_normalize_source`: `None`/empty input and whitespace-only input map to
`None`; otherwise strip, then uppercase. -/
def normalizeSource (s : Option String) : Option (List Char) :=
  match s with
  | none => none
  | some s =>
    if s.toList = [] then none
    else
      let n := pyStrip s.toList
      if n = [] then none else some (pyUpper n)

/-- `parse_story_keys`: all story keys found in the normalized source,
first-seen order, duplicates dropped. -/
def parse_story_keys (s : Option String) : List String :=
  match normalizeSource s with
  | none => []
  | some n => appendUnique [] ((findAll n).map String.mk)

/-- `extract_story_keys`: unique story keys preferring commit message, then
branch, then PR title. -/
def extract_story_keys (message branch pr_title : Option String) : List String :=
  appendUnique
    (appendUnique
      (appendUnique [] (parse_story_keys message))
      (parse_story_keys branch))
    (parse_story_keys pr_title)

/-! ### Whitespace irrelevance for the scanner

`_normalize_source` strips before matching; the spec describes matching on the
(unstripped) uppercased text. The two agree because whitespace can neither
start nor extend a match.
-/

theorem isUpperAlpha_of_ws {c : Char} (h : isWsCh c = true) : isUpperAlpha c = false := by
  simp only [isWsCh, Bool.or_eq_true, decide_eq_true_eq] at h
  simp only [isUpperAlpha, Bool.and_eq_false_iff, decide_eq_false_iff_not]
  omega

theorem isKeyChar_of_ws {c : Char} (h : isWsCh c = true) : isKeyChar c = false := by
  simp only [isWsCh, Bool.or_eq_true, decide_eq_true_eq] at h
  simp only [isKeyChar, isUpperAlpha, isDigitCh, Bool.or_eq_false_iff,
    Bool.and_eq_false_iff, decide_eq_false_iff_not]
  omega

theorem isDigitCh_of_ws {c : Char} (h : isWsCh c = true) : isDigitCh c = false := by
  simp only [isWsCh, Bool.or_eq_true, decide_eq_true_eq] at h
  simp only [isDigitCh, Bool.and_eq_false_iff, decide_eq_false_iff_not]
  omega

theorem ne_dash_of_ws {c : Char} (h : isWsCh c = true) : c ≠ '-' := by
  simp only [isWsCh, Bool.or_eq_true, decide_eq_true_eq] at h
  intro hc
  subst hc
  simp at h

theorem pyUpperChar_of_ws {c : Char} (h : isWsCh c = true) : pyUpperChar c = c := by
  simp only [isWsCh, Bool.or_eq_true, decide_eq_true_eq] at h
  simp only [pyUpperChar, ite_eq_right_iff]
  intro hc
  omega

theorem tryMatch_ws_head {l : List Char} (hl : ∀ c, l.head? = some c → isWsCh c = true) :
    tryMatch l = none := by
  match l with
  | [] => rfl
  | c :: rest =>
    have hc : isWsCh c = true := hl c rfl
    simp [tryMatch, isUpperAlpha_of_ws hc]

/-- `takeWhile`/`dropWhile` are unchanged by appending a tail whose head fails
the predicate. -/
theorem takeWhile_dropWhile_append (p : Char → Bool) (l t : List Char)
    (ht : ∀ c, t.head? = some c → p c = false) :
    (l ++ t).takeWhile p = l.takeWhile p ∧ (l ++ t).dropWhile p = l.dropWhile p ++ t := by
  induction l with
  | nil =>
    simp only [List.nil_append, List.takeWhile_nil, List.dropWhile_nil]
    match t with
    | [] => simp
    | c :: t2 =>
      have := ht c rfl
      simp [List.takeWhile_cons, List.dropWhile_cons, this]
  | cons x xs ih =>
    by_cases hx : p x
    · simp only [List.cons_append, List.takeWhile_cons, List.dropWhile_cons, hx, if_true,
        ih.1, ih.2]
      simp
    · simp [List.cons_append, List.takeWhile_cons, List.dropWhile_cons, hx]

theorem mem_of_head?_eq {c : Char} {l : List Char} (h : l.head? = some c) : c ∈ l := by
  match l with
  | [] => simp at h
  | d :: l2 =>
    simp only [List.head?_cons, Option.some.injEq] at h
    subst h
    simp

theorem tryMatch_append_ws {l ws : List Char} (hws : ∀ c ∈ ws, isWsCh c = true) :
    tryMatch (l ++ ws) = (tryMatch l).map (fun p => (p.1, p.2 ++ ws)) := by
  have hwsHead : ∀ (p : Char → Bool), (∀ c, isWsCh c = true → p c = false) →
      ∀ c, ws.head? = some c → p c = false := fun p hp c hc =>
    hp c (hws c (mem_of_head?_eq hc))
  match l with
  | [] =>
    rw [List.nil_append, tryMatch_ws_head (fun c hc => hws c (mem_of_head?_eq hc))]
    rfl
  | c :: rest =>
    by_cases hc : isUpperAlpha c
    · have hkey := takeWhile_dropWhile_append isKeyChar rest ws
        (hwsHead isKeyChar (fun d hd => isKeyChar_of_ws hd))
      simp only [List.cons_append, tryMatch, hc, if_true, hkey.1, hkey.2]
      by_cases hrun : (rest.takeWhile isKeyChar).isEmpty
      · simp [hrun]
      · simp only [hrun, Bool.false_eq_true, if_false]
        match hdrop : rest.dropWhile isKeyChar with
        | [] =>
          simp only [List.nil_append]
          match hw : ws with
          | [] => rfl
          | d :: ws2 =>
            have hd : isWsCh d = true := hws d (by simp)
            have hne := ne_dash_of_ws hd
            dsimp only
            simp [hne]
        | d :: rest3 =>
          dsimp only [List.cons_append]
          by_cases hd : d = '-'
          · simp only [hd, if_true]
            have hdig := takeWhile_dropWhile_append isDigitCh rest3 ws
              (hwsHead isDigitCh (fun e he => isDigitCh_of_ws he))
            rw [hdig.1, hdig.2]
            by_cases hdigits : (rest3.takeWhile isDigitCh).isEmpty
            · rw [if_pos hdigits, if_pos hdigits]
              rfl
            · rw [if_neg (by simp [hdigits]), if_neg (by simp [hdigits])]
              rfl
          · simp [hd]
    · simp [List.cons_append, tryMatch, hc]

theorem findAll_leading_ws {pre l : List Char} (hpre : ∀ c ∈ pre, isWsCh c = true) :
    findAll (pre ++ l) = findAll l := by
  induction pre with
  | nil => simp
  | cons c pre2 ih =>
    have hc : isWsCh c = true := hpre c (by simp)
    have hnone : tryMatch (c :: (pre2 ++ l)) = none := by
      apply tryMatch_ws_head
      intro d hd
      simp only [List.head?_cons, Option.some.injEq] at hd
      subst hd
      exact hc
    rw [List.cons_append, findAll_cons_none hnone]
    exact ih (fun d hd => hpre d (by simp [hd]))

theorem findAll_append_ws_aux {ws : List Char} (hws : ∀ c ∈ ws, isWsCh c = true) :
    ∀ (n : Nat) (l : List Char), l.length ≤ n → findAll (l ++ ws) = findAll l := by
  intro n
  induction n with
  | zero =>
    intro l hl
    have : l = [] := List.length_eq_zero.mp (Nat.le_zero.mp hl)
    subst this
    rw [List.nil_append, findAll_nil]
    have : ws ++ ([] : List Char) = ws := by simp
    rw [← this]
    exact findAll_leading_ws hws
  | succ n ih =>
    intro l hl
    match l with
    | [] =>
      rw [List.nil_append, findAll_nil]
      have : ws ++ ([] : List Char) = ws := by simp
      rw [← this]
      exact findAll_leading_ws hws
    | c :: rest =>
      have hstep := @tryMatch_append_ws (c :: rest) ws hws
      match htm : tryMatch (c :: rest) with
      | some (m, r) =>
        rw [htm] at hstep
        simp only [Option.map_some'] at hstep
        have hlt := tryMatch_length_lt htm
        simp only [List.length_cons] at hl hlt
        have hstep2 : tryMatch (c :: (rest ++ ws)) = some (m, r ++ ws) := hstep
        calc findAll ((c :: rest) ++ ws) = findAll (c :: (rest ++ ws)) := rfl
          _ = m :: findAll (r ++ ws) := findAll_cons_some hstep2
          _ = m :: findAll r := by rw [ih r (by omega)]
          _ = findAll (c :: rest) := (findAll_cons_some htm).symm
      | none =>
        rw [htm] at hstep
        simp only [Option.map_none'] at hstep
        simp only [List.length_cons] at hl
        have hstep2 : tryMatch (c :: (rest ++ ws)) = none := hstep
        calc findAll ((c :: rest) ++ ws) = findAll (c :: (rest ++ ws)) := rfl
          _ = findAll (rest ++ ws) := findAll_cons_none hstep2
          _ = findAll rest := ih rest (by omega)
          _ = findAll (c :: rest) := (findAll_cons_none htm).symm

theorem findAll_append_ws {l ws : List Char} (hws : ∀ c ∈ ws, isWsCh c = true) :
    findAll (l ++ ws) = findAll l :=
  findAll_append_ws_aux hws l.length l (le_refl _)

theorem pyUpper_ws_id {l : List Char} (h : ∀ c ∈ l, isWsCh c = true) : pyUpper l = l :=
  (List.map_congr_left (fun c hc => pyUpperChar_of_ws (h c hc))).trans (List.map_id l)

theorem pyUpper_append (a b : List Char) : pyUpper (a ++ b) = pyUpper a ++ pyUpper b :=
  List.map_append pyUpperChar a b

/-- Matching on the uppercased stripped text equals matching on the uppercased
text: stripping only removes whitespace ends, which uppercasing fixes and the
pattern ignores. -/
theorem findAll_pyUpper_pyStrip (l : List Char) :
    findAll (pyUpper (pyStrip l)) = findAll (pyUpper l) := by
  have hpre_ws : ∀ c ∈ l.takeWhile isWsCh, isWsCh c = true := fun c hc =>
    List.mem_takeWhile_imp hc
  set l1 := l.dropWhile isWsCh with hl1
  have hsuf_ws : ∀ c ∈ (l1.reverse.takeWhile isWsCh).reverse, isWsCh c = true := by
    intro c hc
    rw [List.mem_reverse] at hc
    exact List.mem_takeWhile_imp hc
  have hdecomp1 : l.takeWhile isWsCh ++ l1 = l :=
    List.takeWhile_append_dropWhile isWsCh l
  have hrev : l1.reverse.takeWhile isWsCh ++ l1.reverse.dropWhile isWsCh = l1.reverse :=
    List.takeWhile_append_dropWhile isWsCh l1.reverse
  have hdecomp2 : (l1.reverse.dropWhile isWsCh).reverse ++
      (l1.reverse.takeWhile isWsCh).reverse = l1 := by
    rw [← List.reverse_append, hrev, List.reverse_reverse]
  have hstrip : pyStrip l = (l1.reverse.dropWhile isWsCh).reverse := rfl
  rw [hstrip]
  calc findAll (pyUpper ((l1.reverse.dropWhile isWsCh).reverse))
      = findAll (pyUpper ((l1.reverse.dropWhile isWsCh).reverse) ++
          (l1.reverse.takeWhile isWsCh).reverse) := (findAll_append_ws hsuf_ws).symm
    _ = findAll (pyUpper ((l1.reverse.dropWhile isWsCh).reverse) ++
          pyUpper ((l1.reverse.takeWhile isWsCh).reverse)) := by
        rw [pyUpper_ws_id hsuf_ws]
    _ = findAll (pyUpper l1) := by rw [← pyUpper_append, hdecomp2]
    _ = findAll (l.takeWhile isWsCh ++ pyUpper l1) := (findAll_leading_ws hpre_ws).symm
    _ = findAll (pyUpper (l.takeWhile isWsCh) ++ pyUpper l1) := by
        rw [pyUpper_ws_id hpre_ws]
    _ = findAll (pyUpper l) := by rw [← pyUpper_append, hdecomp1]

/-! ### Deduplication bookkeeping -/

theorem appendUnique_append (acc : List String) (xs ys : List String) :
    appendUnique acc (xs ++ ys) = appendUnique (appendUnique acc xs) ys := by
  induction xs generalizing acc with
  | nil => simp [appendUnique]
  | cons k ks ih =>
    simp only [List.cons_append, appendUnique]
    by_cases hk : k ∈ acc
    · rw [if_pos hk, if_pos hk]
      exact ih acc
    · rw [if_neg hk, if_neg hk]
      exact ih (acc ++ [k])

/-- The keys `appendUnique` actually appends: those not in `seen` and not seen
earlier in the list. -/
def dedupRemoving (seen : List String) : List String → List String
  | [] => []
  | k :: ks => if k ∈ seen then dedupRemoving seen ks else k :: dedupRemoving (k :: seen) ks

theorem dedupRemoving_congr {s t : List String} (h : ∀ k, k ∈ s ↔ k ∈ t) :
    ∀ xs, dedupRemoving s xs = dedupRemoving t xs := by
  intro xs
  induction xs generalizing s t with
  | nil => simp [dedupRemoving]
  | cons k ks ih =>
    simp only [dedupRemoving]
    by_cases hk : k ∈ s
    · rw [if_pos hk, if_pos ((h k).mp hk), ih h]
    · rw [if_neg hk, if_neg (fun hc => hk ((h k).mpr hc))]
      congr 1
      refine ih ?_
      intro a
      simp only [List.mem_cons]
      rw [h a]

theorem appendUnique_eq_append (acc : List String) (xs : List String) :
    appendUnique acc xs = acc ++ dedupRemoving acc xs := by
  induction xs generalizing acc with
  | nil => simp [appendUnique, dedupRemoving]
  | cons k ks ih =>
    simp only [appendUnique, dedupRemoving]
    by_cases hk : k ∈ acc
    · rw [if_pos hk, if_pos hk, ih]
    · rw [if_neg hk, if_neg hk, ih]
      rw [List.append_assoc, List.singleton_append]
      congr 2
      refine dedupRemoving_congr ?_ ks
      intro a
      simp [List.mem_append, or_comm]

theorem dedupRemoving_idem (xs : List String) :
    ∀ (acc seen : List String), (∀ k ∈ seen, k ∈ acc) →
      dedupRemoving acc (dedupRemoving seen xs) = dedupRemoving acc xs := by
  induction xs with
  | nil => intro acc seen _; simp [dedupRemoving]
  | cons k ks ih =>
    intro acc seen hsub
    simp only [dedupRemoving]
    by_cases hks : k ∈ seen
    · rw [if_pos hks, if_pos (hsub k hks)]
      exact ih acc seen hsub
    · rw [if_neg hks]
      by_cases hka : k ∈ acc
      · rw [if_pos hka]
        simp only [dedupRemoving, if_pos hka]
        refine ih acc (k :: seen) ?_
        intro a ha
        rcases List.mem_cons.mp ha with h1 | h1
        · rw [h1]; exact hka
        · exact hsub a h1
      · rw [if_neg hka]
        simp only [dedupRemoving, if_neg hka]
        congr 1
        refine ih (k :: acc) (k :: seen) ?_
        intro a ha
        rcases List.mem_cons.mp ha with h1 | h1
        · rw [h1]; simp
        · simp [hsub a h1]

/-- Pre-deduplicating a chunk before merging it into an accumulator changes
nothing: the per-source dedup in `parse_story_keys` is absorbed by the
cross-source dedup in `extract_story_keys`. -/
theorem appendUnique_dedup (acc : List String) (xs : List String) :
    appendUnique acc (appendUnique [] xs) = appendUnique acc xs := by
  rw [appendUnique_eq_append [] xs, List.nil_append]
  rw [appendUnique_eq_append acc (dedupRemoving [] xs)]
  rw [appendUnique_eq_append acc xs]
  rw [dedupRemoving_idem xs acc [] (by intro k hk; simp at hk)]

/-! ### The spec-side description of extraction (`specExtract`)

Written from the spec text of §4.2, to be compared with the source embedding
`extract_story_keys`: uppercase each input, match the pattern on the
uppercased text, append in message→branch→title order, and drop
case-insensitively equal duplicates.
-/

def pyUpperStr (s : String) : String := String.mk (pyUpper s.toList)

def upperKeysOf (s : Option String) : List String :=
  match s with
  | none => []
  | some s => (findAll (pyUpper s.toList)).map String.mk

def dedupCaseInsensitive (acc : List String) : List String → List String
  | [] => acc
  | k :: ks =>
    if acc.any (fun a => pyUpperStr a = pyUpperStr k) then dedupCaseInsensitive acc ks
    else dedupCaseInsensitive (acc ++ [k]) ks

def specExtract (message branch pr_title : Option String) : List String :=
  dedupCaseInsensitive [] (upperKeysOf message ++ upperKeysOf branch ++ upperKeysOf pr_title)

/-! ### Matched keys are uppercase-fixed -/

theorem tryMatch_chars {l m r : List Char} (h : tryMatch l = some (m, r)) :
    ∀ x ∈ m, isKeyChar x = true ∨ x = '-' := by
  match l with
  | [] => simp [tryMatch] at h
  | c :: rest =>
    simp only [tryMatch] at h
    by_cases hc : isUpperAlpha c
    · simp only [hc, if_true] at h
      by_cases hrun : (rest.takeWhile isKeyChar).isEmpty
      · simp [hrun] at h
      · simp only [hrun, Bool.false_eq_true, if_false] at h
        match hdrop : rest.dropWhile isKeyChar with
        | [] => rw [hdrop] at h; simp at h
        | d :: rest3 =>
          rw [hdrop] at h
          dsimp only at h
          by_cases hd : d = '-'
          · simp only [hd, if_true] at h
            by_cases hdig : (rest3.takeWhile isDigitCh).isEmpty
            · simp [hdig] at h
            · simp only [hdig, Bool.false_eq_true, if_false, Option.some.injEq,
                Prod.mk.injEq] at h
              intro x hx
              rw [← h.1] at hx
              rcases List.mem_cons.mp hx with h1 | h1
              · left
                rw [h1]
                simp [isKeyChar, hc]
              · rcases List.mem_append.mp h1 with h2 | h2
                · left; exact List.mem_takeWhile_imp h2
                · rcases List.mem_cons.mp h2 with h3 | h3
                  · right; exact h3
                  · left
                    have := List.mem_takeWhile_imp h3
                    simp [isKeyChar, this]
          · simp [hd] at h
    · simp [hc] at h

theorem pyUpperChar_key {c : Char} (h : isKeyChar c = true ∨ c = '-') :
    pyUpperChar c = c := by
  rcases h with h | h
  · simp only [isKeyChar, isUpperAlpha, isDigitCh, Bool.or_eq_true, Bool.and_eq_true,
      decide_eq_true_eq] at h
    simp only [pyUpperChar, ite_eq_right_iff]
    intro hc
    omega
  · rw [h]
    decide

theorem findAll_upper_fixed_aux :
    ∀ (n : Nat) (l : List Char), l.length ≤ n → ∀ m ∈ findAll l, pyUpper m = m := by
  intro n
  induction n with
  | zero =>
    intro l hl m hm
    have : l = [] := List.length_eq_zero.mp (Nat.le_zero.mp hl)
    subst this
    rw [findAll_nil] at hm
    simp at hm
  | succ n ih =>
    intro l hl m hm
    match l with
    | [] => rw [findAll_nil] at hm; simp at hm
    | c :: rest =>
      match htm : tryMatch (c :: rest) with
      | some (mm, r) =>
        rw [findAll_cons_some htm] at hm
        have hlt := tryMatch_length_lt htm
        simp only [List.length_cons] at hl hlt
        rcases List.mem_cons.mp hm with h1 | h1
        · subst h1
          exact (List.map_congr_left
            (fun x hx => pyUpperChar_key (tryMatch_chars htm x hx))).trans (List.map_id m)
        · exact ih r (by omega) m h1
      | none =>
        rw [findAll_cons_none htm] at hm
        simp only [List.length_cons] at hl
        exact ih rest (by omega) m hm

theorem upperKeysOf_fixed (s : Option String) : ∀ k ∈ upperKeysOf s, pyUpperStr k = k := by
  intro k hk
  match s with
  | none => simp [upperKeysOf] at hk
  | some s =>
    simp only [upperKeysOf, List.mem_map] at hk
    obtain ⟨m, hm, hmk⟩ := hk
    have hfix : pyUpper m = m :=
      findAll_upper_fixed_aux (pyUpper s.toList).length (pyUpper s.toList) (le_refl _) m hm
    rw [← hmk]
    show String.mk (pyUpper m) = String.mk m
    rw [hfix]

theorem dedupCaseInsensitive_eq_appendUnique :
    ∀ (xs acc : List String), (∀ k ∈ xs, pyUpperStr k = k) → (∀ a ∈ acc, pyUpperStr a = a) →
      dedupCaseInsensitive acc xs = appendUnique acc xs := by
  intro xs
  induction xs with
  | nil => intro acc _ _; rfl
  | cons k ks ih =>
    intro acc hxs hacc
    have hkfix : pyUpperStr k = k := hxs k (by simp)
    simp only [dedupCaseInsensitive, appendUnique]
    by_cases hk : k ∈ acc
    · rw [if_pos ?_, if_pos hk]
      · exact ih acc (fun a ha => hxs a (by simp [ha])) hacc
      · rw [List.any_eq_true]
        exact ⟨k, hk, by simp⟩
    · rw [if_neg ?_, if_neg hk]
      · refine ih (acc ++ [k]) (fun a ha => hxs a (by simp [ha])) ?_
        intro a ha
        rcases List.mem_append.mp ha with h1 | h1
        · exact hacc a h1
        · simp only [List.mem_singleton] at h1
          rw [h1]; exact hkfix
      · rw [List.any_eq_true]
        rintro ⟨a, ha, hup⟩
        simp only [decide_eq_true_eq] at hup
        have : a = k := by
          calc a = pyUpperStr a := (hacc a ha).symm
            _ = pyUpperStr k := hup
            _ = k := hkfix
        rw [this] at ha
        exact hk ha

/-! ### The per-source characterisation of `parse_story_keys` -/

theorem parse_story_keys_eq (s : Option String) :
    parse_story_keys s = appendUnique [] (upperKeysOf s) := by
  match s with
  | none => rfl
  | some s =>
    simp only [parse_story_keys, normalizeSource, upperKeysOf]
    by_cases h0 : s.toList = []
    · rw [if_pos h0, h0]
      rfl
    · rw [if_neg h0]
      by_cases h1 : pyStrip s.toList = []
      · rw [if_pos h1]
        rw [← findAll_pyUpper_pyStrip, h1]
        rfl
      · rw [if_neg h1]
        show appendUnique [] ((findAll (pyUpper (pyStrip s.toList))).map String.mk)
            = appendUnique [] ((findAll (pyUpper s.toList)).map String.mk)
        rw [findAll_pyUpper_pyStrip]

/-- C4. For all message, branch and PR-title inputs, `extract_story_keys`
uppercases each input, matches `[A-Z][A-Z0-9]+-\d+` against the uppercased
text, and returns keys in first-seen order with message > branch > PR-title
precedence, dropping case-insensitively equal duplicates within and across
sources: it coincides with the spec-side description `specExtract`. -/
theorem claim_C4_extract_story_keys_refines_spec
    (message branch pr_title : Option String) :
    extract_story_keys message branch pr_title = specExtract message branch pr_title := by
  have hfixed : ∀ k ∈ upperKeysOf message ++ upperKeysOf branch ++ upperKeysOf pr_title,
      pyUpperStr k = k := by
    intro k hk
    rcases List.mem_append.mp hk with h1 | h1
    · rcases List.mem_append.mp h1 with h2 | h2
      · exact upperKeysOf_fixed message k h2
      · exact upperKeysOf_fixed branch k h2
    · exact upperKeysOf_fixed pr_title k h1
  unfold extract_story_keys specExtract
  rw [parse_story_keys_eq message, parse_story_keys_eq branch, parse_story_keys_eq pr_title]
  rw [appendUnique_dedup, appendUnique_dedup, appendUnique_dedup]
  rw [← appendUnique_append, ← appendUnique_append]
  rw [dedupCaseInsensitive_eq_appendUnique _ [] hfixed (by intro a ha; simp at ha)]
  rw [← List.append_assoc]

/-! ### A shallow JSON value model

Webhook payloads and commit records are Python dicts of JSON data. `JsonVal`
models the values the handlers inspect; Python `None` is `JsonVal.null`.
-/

inductive JsonVal where
  | null
  | bool (b : Bool)
  | num (n : Int)
  | str (s : String)
  | arr (items : List JsonVal)
  | obj (fields : List (String × JsonVal))

/-- Python `dict.get(key)`: the first binding wins, a missing key is `None`. -/
def jget (fields : List (String × JsonVal)) (k : String) : JsonVal :=
  match fields with
  | [] => JsonVal.null
  | (k2, v) :: rest => if k2 = k then v else jget rest k

/-- Python truthiness of a JSON value (`None`, `False`, `0`, `""`, `[]`, `\x7b\x7d`
are falsy). -/
def pyTruthy : JsonVal → Bool
  | JsonVal.null => false
  | JsonVal.bool b => b
  | JsonVal.num n => n ≠ 0
  | JsonVal.str s => s ≠ ""
  | JsonVal.arr items => ¬items.isEmpty
  | JsonVal.obj fields => ¬fields.isEmpty

/-- Python `a or b`: `a` when truthy, else `b` verbatim. -/
def pyOr (a b : JsonVal) : JsonVal := if pyTruthy a then a else b

/-- Python `str(v)` for JSON data (`str`/`repr` rendering of containers; the
exact container rendering is irrelevant to every claim, only its nonemptiness
can matter, which this model shares with CPython). -/
def pyStrVal : JsonVal → String
  | JsonVal.null => "None"
  | JsonVal.bool true => "True"
  | JsonVal.bool false => "False"
  | JsonVal.num n => toString n
  | JsonVal.str s => s
  | JsonVal.arr _ => "[...]"
  | JsonVal.obj _ => "\x7b...\x7d"

/-- A JSON value as the optional string the extraction helpers accept:
`_normalize_source` returns `None` for any non-string input. -/
def asOptStr : JsonVal → Option String
  | JsonVal.str s => some s
  | _ => none

/-! ### Embedding of `story_keys_from_commit` (`src/matcher/link_rules.py`) -/

/-- The inner loop of `story_keys_from_commit` over an explicit `story_keys`
list: parse each string item, appending unseen keys in order. -/
def normalizeExplicitKeys (items : List JsonVal) : List String :=
  items.foldl
    (fun ordered item =>
      match item with
      | JsonVal.str s => appendUnique ordered (parse_story_keys (some s))
      | _ => ordered)
    []

/-- `_pull_request_title`: `pr_title`, else `pull_request.title`, else
`metadata.pr_title` / `metadata.pull_request_title` — each only when a
non-blank string. -/
def pull_request_title_meta (commit : List (String × JsonVal)) : Option String :=
  match jget commit "metadata" with
  | JsonVal.obj meta =>
    (match pyOr (jget meta "pr_title") (jget meta "pull_request_title") with
     | JsonVal.str t => if (pyStrip t.toList) ≠ [] then some t else none
     | _ => none)
  | _ => none

def pull_request_title_fallback (commit : List (String × JsonVal)) : Option String :=
  match jget commit "pull_request" with
  | JsonVal.obj pr =>
    (match jget pr "title" with
     | JsonVal.str t =>
       if (pyStrip t.toList) ≠ [] then some t else pull_request_title_meta commit
     | _ => pull_request_title_meta commit)
  | _ => pull_request_title_meta commit

def pull_request_title (commit : List (String × JsonVal)) : Option String :=
  match jget commit "pr_title" with
  | JsonVal.str s =>
    if (pyStrip s.toList) ≠ [] then some s
    else pull_request_title_fallback commit
  | _ => pull_request_title_fallback commit

/-- `story_keys_from_commit`: prefer a non-empty normalization of an explicit
`story_keys` list; otherwise derive from message/summary, branch and PR
title. -/
def story_keys_from_commit (commit : List (String × JsonVal)) : List String :=
  let explicit :=
    match jget commit "story_keys" with
    | JsonVal.arr items => normalizeExplicitKeys items
    | _ => []
  if explicit ≠ [] then explicit
  else
    let message := asOptStr (pyOr (jget commit "message") (jget commit "summary"))
    let branch := asOptStr (jget commit "branch")
    let title := pull_request_title commit
    extract_story_keys message branch title

theorem mem_appendUnique (xs : List String) :
    ∀ (acc : List String) (k : String), k ∈ appendUnique acc xs ↔ k ∈ acc ∨ k ∈ xs := by
  induction xs with
  | nil => intro acc k; simp [appendUnique]
  | cons k0 ks ih =>
    intro acc k
    simp only [appendUnique]
    by_cases h0 : k0 ∈ acc
    · rw [if_pos h0, ih acc k]
      constructor
      · rintro (h | h)
        · exact Or.inl h
        · exact Or.inr (by simp [h])
      · rintro (h | h)
        · exact Or.inl h
        · rcases List.mem_cons.mp h with h1 | h1
          · subst h1; exact Or.inl h0
          · exact Or.inr h1
    · rw [if_neg h0, ih (acc ++ [k0]) k]
      simp only [List.mem_append, List.mem_singleton, List.mem_cons]
      tauto

/-! ### The correlation engine

`src/matcher/engine.py` delegates to `processors.audit_processor.AuditProcessor`,
whose module is not among the sources here (only its callers and its test).
The processor is therefore modelled from the spec.
-/

/-- Modelled from the spec: `processors.audit_processor.AuditProcessor.process`
(module `processors/audit_processor.py`, absent from the sources). Spec §4.5:
for every commit extract its story keys (§4.2) and emit one matched pair per
key, independent of whether the key belongs to a tracked issue; a commit with
zero extracted keys is an orphan; an issue is without commits iff its key
never appears among any commit's extracted keys; summary counters are
derived. -/
structure AuditResult where
  commit_story_mapping : List (String × List (List (String × JsonVal)))
  stories_with_no_commits : List (List (String × JsonVal))
  orphan_commits : List (List (String × JsonVal))
  total_stories : Nat
  total_commits : Nat

/-- Modelled from the spec: see `AuditResult`. -/
def auditProcess (issues commits : List (List (String × JsonVal))) : AuditResult :=
  let allKeys := appendUnique [] (commits.flatMap story_keys_from_commit)
  { commit_story_mapping :=
      allKeys.map (fun k => (k, commits.filter (fun c => k ∈ story_keys_from_commit c)))
    stories_with_no_commits :=
      issues.filter (fun i => ¬allKeys.contains (pyStrVal (jget i "key")))
    orphan_commits := commits.filter (fun c => (story_keys_from_commit c).isEmpty)
    total_stories := issues.length
    total_commits := commits.length }

/-- `src/matcher/engine.py` `match`: run the audit processor and flatten
`commit_story_mapping` into `(issue_key, commit)` pairs; pass through the
no-commit stories and orphan commits (the summary counters are the derived
totals). -/
def engine_match (issues commits : List (List (String × JsonVal))) :
    List (String × List (String × JsonVal))
      × List (List (String × JsonVal))
      × List (List (String × JsonVal))
      × (Nat × Nat) :=
  let result := auditProcess issues commits
  (result.commit_story_mapping.flatMap (fun p => p.2.map (fun c => (p.1, c))),
   result.stories_with_no_commits,
   result.orphan_commits,
   (result.total_stories, result.total_commits))

/-- C5. Every commit contributes one matched pair per extracted story key —
whether or not the key belongs to a tracked issue — and a commit with zero
extracted keys is always an orphan and never appears in a matched pair. -/
theorem claim_C5_match_pairs_and_orphans
    (issues commits : List (List (String × JsonVal)))
    (k : String) (c : List (String × JsonVal)) :
    ((k, c) ∈ (engine_match issues commits).1 ↔
      (c ∈ commits ∧ k ∈ story_keys_from_commit c)) ∧
    (c ∈ commits → story_keys_from_commit c = [] →
      (c ∈ (engine_match issues commits).2.2.1 ∧
        ∀ k2 : String, (k2, c) ∉ (engine_match issues commits).1)) := by
  have hmem : ∀ (k2 : String) (c2 : List (String × JsonVal)),
      (k2, c2) ∈ (engine_match issues commits).1 ↔
        (c2 ∈ commits ∧ k2 ∈ story_keys_from_commit c2) := by
    intro k2 c2
    simp only [engine_match, auditProcess, List.mem_flatMap, List.mem_map, List.mem_filter]
    constructor
    · rintro ⟨p, ⟨k0, hk0, hp⟩, c3, hc3, hpair⟩
      rw [← hp] at hc3 hpair
      simp only at hc3 hpair
      obtain ⟨hc3mem, hc3key⟩ := List.mem_filter.mp hc3
      have h1 : k2 = k0 := (Prod.mk.injEq _ _ _ _ ▸ hpair.symm).1
      have h2 : c2 = c3 := (Prod.mk.injEq _ _ _ _ ▸ hpair.symm).2
      subst h1; subst h2
      exact ⟨hc3mem, of_decide_eq_true hc3key⟩
    · rintro ⟨hc, hk⟩
      refine ⟨(k2, commits.filter (fun c3 => k2 ∈ story_keys_from_commit c3)),
        ⟨k2, ?_, rfl⟩, c2, ?_, rfl⟩
      · rw [mem_appendUnique]
        right
        rw [List.mem_flatMap]
        exact ⟨c2, hc, hk⟩
      · rw [List.mem_filter]
        exact ⟨hc, decide_eq_true hk⟩
  constructor
  · exact hmem k c
  · intro hc hempty
    constructor
    · simp only [engine_match, auditProcess, List.mem_filter]
      exact ⟨hc, by simp [hempty]⟩
    · intro k2 hk2
      have := (hmem k2 c).mp hk2
      rw [hempty] at this
      simp at this

theorem claim_C5_witness :
    (("ABC-1", [("message", JsonVal.str "ABC-1 fix")])
        ∈ (engine_match [] [[("message", JsonVal.str "ABC-1 fix")],
            [("message", JsonVal.str "no ticket")]]).1) ∧
    ([("message", JsonVal.str "no ticket")]
        ∈ (engine_match [] [[("message", JsonVal.str "ABC-1 fix")],
            [("message", JsonVal.str "no ticket")]]).2.2.1) := by
  constructor
  · exact (claim_C5_match_pairs_and_orphans []
      [[("message", JsonVal.str "ABC-1 fix")], [("message", JsonVal.str "no ticket")]]
      "ABC-1" [("message", JsonVal.str "ABC-1 fix")]).1.mpr
      ⟨by simp, by decide⟩
  · exact ((claim_C5_match_pairs_and_orphans []
      [[("message", JsonVal.str "ABC-1 fix")], [("message", JsonVal.str "no ticket")]]
      "X" [("message", JsonVal.str "no ticket")]).2 (by simp) (by decide)).1

/-- C7 as stated is false: a commit can carry an explicit `story_keys` field
whose normalization is empty, in which case `story_keys_from_commit` falls
back to the commit message instead of returning the normalized field. -/
theorem claim_C7_counterexample :
    story_keys_from_commit
        [("story_keys", JsonVal.arr [JsonVal.str "nothing here"]),
         ("message", JsonVal.str "ABC-1 fix")] = ["ABC-1"] ∧
      normalizeExplicitKeys [JsonVal.str "nothing here"] = [] := by
  constructor
  · decide
  · decide

/-- C7 amended: whenever the explicit `story_keys` list normalizes to at least
one key, the resolved keys are exactly that normalization and the commit's
message, branch and PR title are not consulted. -/
theorem claim_C7_explicit_keys_used_when_nonempty
    (commit : List (String × JsonVal)) (items : List JsonVal)
    (harr : jget commit "story_keys" = JsonVal.arr items)
    (hne : normalizeExplicitKeys items ≠ []) :
    story_keys_from_commit commit = normalizeExplicitKeys items := by
  unfold story_keys_from_commit
  rw [harr]
  simp only [hne, ne_eq, not_false_eq_true, if_true]

theorem claim_C7_witness :
    jget [("story_keys", JsonVal.arr [JsonVal.str "ops-1"]),
        ("message", JsonVal.str "ABC-9 fix")] "story_keys"
      = JsonVal.arr [JsonVal.str "ops-1"] ∧
    normalizeExplicitKeys [JsonVal.str "ops-1"] ≠ [] ∧
    story_keys_from_commit
        [("story_keys", JsonVal.arr [JsonVal.str "ops-1"]),
         ("message", JsonVal.str "ABC-9 fix")]
      = normalizeExplicitKeys [JsonVal.str "ops-1"] :=
  ⟨rfl, by decide,
    claim_C7_explicit_keys_used_when_nonempty
      [("story_keys", JsonVal.arr [JsonVal.str "ops-1"]),
       ("message", JsonVal.str "ABC-9 fix")]
      [JsonVal.str "ops-1"] rfl (by decide)⟩

/-! ### The DynamoDB issue table (`services/jira_sync_webhook/handler.py`)

Rows are keyed by `(issue_key, updated_at)` (partition + sort key). The table
is modelled as a list of items with at most the usual DynamoDB uniqueness of
keys assumed nowhere except where stated.
-/

/-- The item shape written by `_handle_upsert` / `_mark_tombstone`. Every row
this handler writes carries `idempotency_key`. -/
structure IssueItem where
  issue_key : String
  updated_at : String
  issue_id : String
  project_key : JsonVal
  status : JsonVal
  assignee : JsonVal
  fix_version : JsonVal
  fix_versions : List JsonVal
  received_at : String
  issue : JsonVal
  deleted : Bool
  last_event_type : String
  idempotency_key : String

abbrev IssueTable := List IssueItem

/-- The item stored at key `(k, sk)`, if any. -/
def lookupRow (t : IssueTable) (k sk : String) : Option IssueItem :=
  t.find? (fun r => decide (r.issue_key = k ∧ r.updated_at = sk))

/-- DynamoDB `put_item` state effect: replace the item at the key, or append a
new item. -/
def putRow (t : IssueTable) (r : IssueItem) : IssueTable :=
  match t with
  | [] => [r]
  | x :: xs =>
    if x.issue_key = r.issue_key ∧ x.updated_at = r.updated_at then r :: xs
    else x :: putRow xs r

inductive PutOutcome where
  | written
  | conditionalFailed

/-- `_put_item_with_retry`: `put_item` guarded by
`attribute_not_exists(idempotency_key) OR idempotency_key = :id` — the write
goes through when no row exists at `(issue_key, updated_at)` or when the
stored row's idempotency key equals the incoming one; otherwise DynamoDB
raises `ConditionalCheckFailedException` and the state is untouched. -/
def putItemCond (t : IssueTable) (r : IssueItem) : IssueTable × PutOutcome :=
  match lookupRow t r.issue_key r.updated_at with
  | none => (putRow t r, PutOutcome.written)
  | some old =>
    if old.idempotency_key = r.idempotency_key then (putRow t r, PutOutcome.written)
    else (t, PutOutcome.conditionalFailed)

/-- `_put_item_with_retry` as run under `_execute_with_backoff`, which turns a
`ConditionalCheckFailedException` into a logged no-op: the call always returns
success (`executeWithBackoff` below embeds the retry control flow itself). -/
def putItemWithRetry (t : IssueTable) (r : IssueItem) : IssueTable × Bool :=
  ((putItemCond t r).1, true)

theorem lookupRow_putRow (t : IssueTable) (r : IssueItem) :
    lookupRow (putRow t r) r.issue_key r.updated_at = some r := by
  induction t with
  | nil => simp [putRow, lookupRow, List.find?]
  | cons x xs ih =>
    simp only [putRow]
    by_cases hx : x.issue_key = r.issue_key ∧ x.updated_at = r.updated_at
    · rw [if_pos hx]
      simp [lookupRow, List.find?]
    · rw [if_neg hx]
      simp only [lookupRow, List.find?_cons] at ih ⊢
      rw [decide_eq_false hx]
      exact ih

/-- C1. A webhook issue write at `(issue_key, updated_at)` is accepted
unconditionally when no row exists at that key; when a row exists it is
overwritten exactly when the incoming idempotency key equals the stored one;
and on a key mismatch the operation completes as a successful no-op — the
handler reports success and the table (hence the stored row) is unchanged. -/
theorem claim_C1_conditional_write_no_op (t : IssueTable) (r : IssueItem) :
    (lookupRow t r.issue_key r.updated_at = none →
      putItemWithRetry t r = (putRow t r, true) ∧
        lookupRow (putRow t r) r.issue_key r.updated_at = some r) ∧
    (∀ old, lookupRow t r.issue_key r.updated_at = some old →
      old.idempotency_key = r.idempotency_key →
      putItemWithRetry t r = (putRow t r, true) ∧
        lookupRow (putRow t r) r.issue_key r.updated_at = some r) ∧
    (∀ old, lookupRow t r.issue_key r.updated_at = some old →
      old.idempotency_key ≠ r.idempotency_key →
      putItemWithRetry t r = (t, true) ∧
        lookupRow t r.issue_key r.updated_at = some old) := by
  refine ⟨?_, ?_, ?_⟩
  · intro h
    constructor
    · simp [putItemWithRetry, putItemCond, h]
    · exact lookupRow_putRow t r
  · intro old h heq
    constructor
    · simp [putItemWithRetry, putItemCond, h, heq]
    · exact lookupRow_putRow t r
  · intro old h hne
    constructor
    · simp [putItemWithRetry, putItemCond, h, hne]
    · exact h

/-- A sample row for witnesses: first delivery of issue APP-1. -/
def sampleItemA : IssueItem :=
  { issue_key := "APP-1", updated_at := "2024-01-01T00:00:00Z", issue_id := "1"
    project_key := JsonVal.null, status := JsonVal.str "Open"
    assignee := JsonVal.str "UNASSIGNED", fix_version := JsonVal.str "UNASSIGNED"
    fix_versions := [], received_at := "2024-01-01T00:00:05Z"
    issue := JsonVal.obj [], deleted := false
    last_event_type := "jira:issue_created", idempotency_key := "deliv-1" }

/-- A second delivery for the same `(issue_key, updated_at)` pair with a
different idempotency key. -/
def sampleItemB : IssueItem :=
  { sampleItemA with status := JsonVal.str "Closed", idempotency_key := "deliv-2" }

theorem claim_C1_witness :
    (putItemWithRetry ([] : IssueTable) sampleItemA = (putRow [] sampleItemA, true) ∧
      lookupRow (putRow [] sampleItemA) sampleItemA.issue_key sampleItemA.updated_at
        = some sampleItemA) ∧
    (putItemWithRetry [sampleItemA] sampleItemB = ([sampleItemA], true) ∧
      lookupRow [sampleItemA] sampleItemB.issue_key sampleItemB.updated_at
        = some sampleItemA) :=
  ⟨(claim_C1_conditional_write_no_op [] sampleItemA).1 rfl,
   (claim_C1_conditional_write_no_op [sampleItemA] sampleItemB).2.2 sampleItemA rfl
     (by decide)⟩

/-! ### The normalized webhook event and the item builders -/

/-- `JiraWebhookEvent` (`src/releasecopilot/jira/webhook_parser.py`): the
normalized view of one delivery. `issue`/`payload`/`fields`/`changelog` keep
the raw JSON data the handler reads back out. -/
structure JiraWebhookEvent where
  event_type : String
  issue_key : String
  issue_id : String
  updated_at : String
  issue : JsonVal
  fields : List (String × JsonVal)
  changelog : List (String × JsonVal)
  delivery_id : Option String
  timestamp : Option String
  payload : List (String × JsonVal)

/-- Python `dict.get(key, default)`. -/
def jgetD (fields : List (String × JsonVal)) (k : String) (d : JsonVal) : JsonVal :=
  match fields with
  | [] => d
  | (k2, v) :: rest => if k2 = k then v else jgetD rest k d

/-- `[fv.get("name") for fv in issue_fields.get("fixVersions") or [] if fv.get("name")]`.
A truthy non-list `fixVersions` or a non-dict element would raise in Python;
those shapes cannot leave Jira and are modelled as contributing nothing. -/
def fixVersionNames (fields : List (String × JsonVal)) : List JsonVal :=
  match pyOr (jget fields "fixVersions") (JsonVal.arr []) with
  | JsonVal.arr items =>
    items.filterMap (fun fv =>
      match fv with
      | JsonVal.obj f => if pyTruthy (jget f "name") then some (jget f "name") else none
      | _ => none)
  | _ => []

/-- `(issue_fields.get("status") or \x7b\x7d).get("name", "UNKNOWN")`. -/
def statusName (fields : List (String × JsonVal)) : JsonVal :=
  match pyOr (jget fields "status") (JsonVal.obj []) with
  | JsonVal.obj s => jgetD s "name" (JsonVal.str "UNKNOWN")
  | _ => JsonVal.str "UNKNOWN"

/-- `(issue_fields.get("assignee") or \x7b\x7d).get("accountId") or (...).get("displayName")`. -/
def assigneeOf (fields : List (String × JsonVal)) : JsonVal :=
  match pyOr (jget fields "assignee") (JsonVal.obj []) with
  | JsonVal.obj f => pyOr (jget f "accountId") (jget f "displayName")
  | _ => JsonVal.null

/-- `(issue_fields.get("project") or \x7b\x7d).get("key")`. -/
def projectKeyOf (fields : List (String × JsonVal)) : JsonVal :=
  match pyOr (jget fields "project") (JsonVal.obj []) with
  | JsonVal.obj p => jget p "key"
  | _ => JsonVal.null

/-- The first truthy payload value among the given keys, if any. -/
def firstTruthy (fields : List (String × JsonVal)) : List String → Option JsonVal
  | [] => none
  | k :: ks =>
    let v := jget fields k
    if pyTruthy v then some v else firstTruthy fields ks

/-- `_compute_idempotency_key`: an explicit delivery/event id, else the
changelog id, else `issueKey:timestamp`, else
`issueKey:updatedAt:eventType`. -/
def computeIdempotencyKey (ev : JiraWebhookEvent) (issue_key updated_at : String) : String :=
  match firstTruthy ev.payload ["deliveryId", "delivery_id", "eventId", "event_id"] with
  | some v => pyStrVal v
  | none =>
    let ident := jget ev.changelog "id"
    if pyTruthy ident then pyStrVal ident
    else
      let ts := jget ev.payload "timestamp"
      if pyTruthy ts then issue_key ++ ":" ++ pyStrVal ts
      else issue_key ++ ":" ++ updated_at ++ ":" ++ ev.event_type

/-- The item `_handle_upsert` builds (with `updated_at` already defaulted and
the idempotency key already derived, as in the source order). -/
def buildUpsertItem (ev : JiraWebhookEvent) (updated_at idk nowIso : String) : IssueItem :=
  let fixVs := fixVersionNames ev.fields
  { issue_key := ev.issue_key
    updated_at := updated_at
    issue_id := ev.issue_id
    project_key := projectKeyOf ev.fields
    status := statusName ev.fields
    assignee := pyOr (assigneeOf ev.fields) (JsonVal.str "UNASSIGNED")
    fix_version := match fixVs with | [] => JsonVal.str "UNASSIGNED" | v :: _ => v
    fix_versions := fixVs
    received_at := nowIso
    issue := ev.issue
    deleted := false
    last_event_type := ev.event_type
    idempotency_key := idk }

/-- The tombstone item `_mark_tombstone` inserts when no row exists yet:
`deleted=true` and the delete event's own timestamp as `updated_at`. -/
def tombstoneItem (ev : JiraWebhookEvent) (issue_key updated_at idk nowIso : String) :
    IssueItem :=
  let fixVs := fixVersionNames ev.fields
  { issue_key := issue_key
    updated_at := updated_at
    issue_id := ev.issue_id
    project_key := projectKeyOf ev.fields
    status := statusName ev.fields
    assignee := pyOr (assigneeOf ev.fields) (JsonVal.str "UNASSIGNED")
    fix_version := match fixVs with | [] => JsonVal.str "UNASSIGNED" | v :: _ => v
    fix_versions := fixVs
    received_at := nowIso
    issue := pyOr ev.issue (JsonVal.obj [])
    deleted := true
    last_event_type := ev.event_type
    idempotency_key := idk }

/-! ### `_fetch_latest_issue_item` and `_mark_tombstone` -/

/-- One step of selecting the row with the greatest `updated_at`. -/
def latestStep (acc : Option IssueItem) (r : IssueItem) : Option IssueItem :=
  match acc with
  | none => some r
  | some best => if best.updated_at < r.updated_at then some r else acc

/-- `_fetch_latest_issue_item`: query by issue key, `ScanIndexForward=False`,
`Limit=1` — the row for the key with the greatest (byte-wise, i.e. string)
sort key. -/
def fetchLatest (t : IssueTable) (k : String) : Option IssueItem :=
  (t.filter (fun r => decide (r.issue_key = k))).foldl latestStep none

/-- The `SET` clause of `_mark_tombstone`'s `update_item`: flip `deleted`,
refresh `last_event_type`, `received_at` and `idempotency_key`; everything
else (in particular both key attributes) is untouched. -/
def updateTombstoneFields (r : IssueItem) (ev_type nowIso idk : String) : IssueItem :=
  { r with deleted := true, last_event_type := ev_type, received_at := nowIso,
           idempotency_key := idk }

/-- DynamoDB `update_item` at key `(k, sk)` as a state effect: rewrite the
addressed row in place. (The create-if-absent behaviour of `update_item` is
not represented: the caller addresses a key taken from a row it just
fetched.) -/
def updateItemAt (t : IssueTable) (k sk : String) (f : IssueItem → IssueItem) : IssueTable :=
  t.map (fun r => if r.issue_key = k ∧ r.updated_at = sk then f r else r)

/-- `_mark_tombstone`: update the latest row in place when one exists
(returning `True`), else insert a fresh tombstone item via the conditional
put (returning `False`). -/
def markTombstone (t : IssueTable) (ev : JiraWebhookEvent)
    (issue_key updated_at idk nowIso : String) : IssueTable × Bool :=
  match fetchLatest t issue_key with
  | some latest =>
    let sort_key := if latest.updated_at = "" then updated_at else latest.updated_at
    (updateItemAt t issue_key sort_key
      (fun r => updateTombstoneFields r ev.event_type nowIso idk), true)
  | none =>
    ((putItemWithRetry t (tombstoneItem ev issue_key updated_at idk nowIso)).1, false)

theorem foldl_latestStep_mem :
    ∀ (l : List IssueItem) (acc : Option IssueItem) (r : IssueItem),
      l.foldl latestStep acc = some r → acc = some r ∨ r ∈ l := by
  intro l
  induction l with
  | nil => intro acc r h; exact Or.inl h
  | cons x xs ih =>
    intro acc r h
    rcases ih (latestStep acc x) r h with h1 | h1
    · match acc with
      | none =>
        simp only [latestStep, Option.some.injEq] at h1
        exact Or.inr (by simp [h1])
      | some b =>
        simp only [latestStep] at h1
        by_cases hlt : b.updated_at < x.updated_at
        · rw [if_pos hlt] at h1
          simp only [Option.some.injEq] at h1
          exact Or.inr (by simp [h1])
        · rw [if_neg hlt] at h1
          exact Or.inl h1
    · exact Or.inr (by simp [h1])

theorem foldl_latestStep_ne_none :
    ∀ (l : List IssueItem) (b : IssueItem), l.foldl latestStep (some b) ≠ none := by
  intro l
  induction l with
  | nil => intro b h; simp at h
  | cons x xs ih =>
    intro b h
    simp only [List.foldl_cons, latestStep] at h
    by_cases hlt : b.updated_at < x.updated_at
    · rw [if_pos hlt] at h
      exact ih x h
    · rw [if_neg hlt] at h
      exact ih b h

theorem foldl_latestStep_max :
    ∀ (l : List IssueItem) (acc : Option IssueItem) (m : IssueItem),
      l.foldl latestStep acc = some m →
        (∀ b, acc = some b → ¬(m.updated_at < b.updated_at)) ∧
        (∀ r ∈ l, ¬(m.updated_at < r.updated_at)) := by
  intro l
  induction l with
  | nil =>
    intro acc m h
    constructor
    · intro b hb
      rw [hb] at h
      simp only [List.foldl_nil, Option.some.injEq] at h
      rw [h]
      exact lt_irrefl _
    · intro r hr; simp at hr
  | cons x xs ih =>
    intro acc m h
    simp only [List.foldl_cons] at h
    obtain ⟨hacc2, hxs⟩ := ih (latestStep acc x) m h
    have hx : ¬(m.updated_at < x.updated_at) := by
      match acc with
      | none => exact hacc2 x rfl
      | some b =>
        simp only [latestStep] at hacc2
        by_cases hlt : b.updated_at < x.updated_at
        · rw [if_pos hlt] at hacc2
          exact hacc2 x rfl
        · rw [if_neg hlt] at hacc2
          intro hmx
          exact hacc2 b rfl (lt_of_lt_of_le hmx (le_of_not_lt hlt))
    refine ⟨?_, ?_⟩
    · intro b hb
      subst hb
      simp only [latestStep] at hacc2
      by_cases hlt : b.updated_at < x.updated_at
      · rw [if_pos hlt] at hacc2
        intro hmb
        exact hacc2 x rfl (lt_trans hmb hlt)
      · rw [if_neg hlt] at hacc2
        exact hacc2 b rfl
    · intro r hr
      rcases List.mem_cons.mp hr with h1 | h1
      · rw [h1]; exact hx
      · exact hxs r h1

theorem fetchLatest_mem {t : IssueTable} {k : String} {r : IssueItem}
    (h : fetchLatest t k = some r) : r ∈ t ∧ r.issue_key = k := by
  rcases foldl_latestStep_mem _ none r h with h1 | h1
  · simp at h1
  · obtain ⟨hmem, hkey⟩ := List.mem_filter.mp h1
    exact ⟨hmem, of_decide_eq_true hkey⟩

theorem fetchLatest_max {t : IssueTable} {k : String} {m : IssueItem}
    (h : fetchLatest t k = some m) :
    ∀ r ∈ t, r.issue_key = k → ¬(m.updated_at < r.updated_at) := by
  intro r hr hrk
  refine (foldl_latestStep_max _ none m h).2 r ?_
  rw [List.mem_filter]
  exact ⟨hr, decide_eq_true hrk⟩

theorem fetchLatest_none {t : IssueTable} {k : String}
    (h : fetchLatest t k = none) : ∀ r ∈ t, r.issue_key ≠ k := by
  intro r hr hrk
  have hmem : r ∈ t.filter (fun r2 => decide (r2.issue_key = k)) := by
    rw [List.mem_filter]
    exact ⟨hr, decide_eq_true hrk⟩
  match hf : t.filter (fun r2 => decide (r2.issue_key = k)) with
  | [] => rw [hf] at hmem; simp at hmem
  | x :: xs =>
    unfold fetchLatest at h
    rw [hf] at h
    simp only [List.foldl_cons, latestStep] at h
    exact foldl_latestStep_ne_none xs x h

theorem putRow_absent {t : IssueTable} {r : IssueItem}
    (h : ∀ x ∈ t, ¬(x.issue_key = r.issue_key ∧ x.updated_at = r.updated_at)) :
    putRow t r = t ++ [r] := by
  induction t with
  | nil => rfl
  | cons x xs ih =>
    simp only [putRow]
    rw [if_neg (h x (by simp))]
    rw [ih (fun y hy => h y (by simp [hy]))]
    simp

/-- C6. A delete event never removes rows: with an existing row for the issue
key it flips `deleted=true` (also refreshing `last_event_type` and
`idempotency_key`) in place on the row with the greatest `updated_at` (the
first row in descending sort order), leaving every row's `updated_at`
unchanged and the row count intact; with no row for the key it appends a new
tombstone whose `updated_at` is the delete event's own timestamp. -/
theorem claim_C6_delete_tombstone (t : IssueTable) (ev : JiraWebhookEvent)
    (issue_key updated_at idk nowIso : String) :
    (∀ latest, fetchLatest t issue_key = some latest → latest.updated_at ≠ "" →
      markTombstone t ev issue_key updated_at idk nowIso
          = (updateItemAt t issue_key latest.updated_at
              (fun r => updateTombstoneFields r ev.event_type nowIso idk), true) ∧
        latest ∈ t ∧ latest.issue_key = issue_key ∧
        (∀ r ∈ t, r.issue_key = issue_key → ¬(latest.updated_at < r.updated_at)) ∧
        (updateItemAt t issue_key latest.updated_at
            (fun r => updateTombstoneFields r ev.event_type nowIso idk)).length
          = t.length ∧
        (∀ r : IssueItem,
          (updateTombstoneFields r ev.event_type nowIso idk).updated_at = r.updated_at ∧
          (updateTombstoneFields r ev.event_type nowIso idk).deleted = true ∧
          (updateTombstoneFields r ev.event_type nowIso idk).last_event_type
            = ev.event_type ∧
          (updateTombstoneFields r ev.event_type nowIso idk).idempotency_key = idk)) ∧
    (fetchLatest t issue_key = none →
      markTombstone t ev issue_key updated_at idk nowIso
          = (t ++ [tombstoneItem ev issue_key updated_at idk nowIso], false) ∧
        (tombstoneItem ev issue_key updated_at idk nowIso).updated_at = updated_at ∧
        (tombstoneItem ev issue_key updated_at idk nowIso).deleted = true) := by
  constructor
  · intro latest hlat hne
    obtain ⟨hmem, hkey⟩ := fetchLatest_mem hlat
    refine ⟨?_, hmem, hkey, fetchLatest_max hlat, ?_, ?_⟩
    · unfold markTombstone
      rw [hlat]
      simp only [if_neg hne]
    · simp [updateItemAt]
    · intro r
      exact ⟨rfl, rfl, rfl, rfl⟩
  · intro h
    refine ⟨?_, rfl, rfl⟩
    unfold markTombstone
    rw [h]
    simp only [putItemWithRetry, putItemCond]
    have hnone : lookupRow t (tombstoneItem ev issue_key updated_at idk nowIso).issue_key
        (tombstoneItem ev issue_key updated_at idk nowIso).updated_at = none := by
      show lookupRow t issue_key updated_at = none
      unfold lookupRow
      rw [List.find?_eq_none]
      intro x hx
      simp only [decide_eq_true_eq, not_and]
      intro hxk
      exact absurd hxk (fetchLatest_none h x hx)
    rw [hnone]
    simp only
    rw [putRow_absent ?_]
    intro x hx hcontra
    have hxk : x.issue_key = issue_key := hcontra.1
    exact (fetchLatest_none h x hx) hxk

/-- A concrete delete event for witnesses. -/
def sampleDeleteEvent : JiraWebhookEvent :=
  { event_type := "jira:issue_deleted", issue_key := "APP-1", issue_id := "1"
    updated_at := "2024-01-02T00:00:00Z", issue := JsonVal.obj []
    fields := [], changelog := [], delivery_id := none
    timestamp := some "2024-01-02T00:00:00Z", payload := [] }

theorem claim_C6_witness :
    (markTombstone [sampleItemA] sampleDeleteEvent "APP-1" "2024-01-02T00:00:00Z"
        "del-1" "2024-01-02T00:00:05Z"
      = (updateItemAt [sampleItemA] "APP-1" sampleItemA.updated_at
          (fun r => updateTombstoneFields r sampleDeleteEvent.event_type
            "2024-01-02T00:00:05Z" "del-1"), true)) ∧
    (markTombstone ([] : IssueTable) sampleDeleteEvent "APP-1" "2024-01-02T00:00:00Z"
        "del-1" "2024-01-02T00:00:05Z"
      = ([] ++ [tombstoneItem sampleDeleteEvent "APP-1" "2024-01-02T00:00:00Z" "del-1"
          "2024-01-02T00:00:05Z"], false)) :=
  ⟨((claim_C6_delete_tombstone [sampleItemA] sampleDeleteEvent "APP-1"
      "2024-01-02T00:00:00Z" "del-1" "2024-01-02T00:00:05Z").1 sampleItemA rfl
      (by decide)).1,
   ((claim_C6_delete_tombstone [] sampleDeleteEvent "APP-1" "2024-01-02T00:00:00Z"
      "del-1" "2024-01-02T00:00:05Z").2 rfl).1⟩

/-! ### `_execute_with_backoff`: the retry control flow

The store call's outcome on each attempt is an input (`outcome`); delays are
recorded rather than slept. Defaults mirror the environment defaults
`RC_DDB_MAX_ATTEMPTS=5`, `RC_DDB_BASE_DELAY=0.5`.
-/

/-- `_RETRYABLE_ERRORS`. -/
def retryableErrors : List String :=
  ["ProvisionedThroughputExceededException", "ThrottlingException",
   "RequestLimitExceeded", "InternalServerError", "TransactionInProgressException"]

inductive Outcome where
  | ok
  | err (code : String)

inductive BkResult where
  | succeeded (delays : List ℚ)
  | condNoop (delays : List ℚ)
  | raised (code : String) (delays : List ℚ)

def withDelay (d : ℚ) : BkResult → BkResult
  | BkResult.succeeded ds => BkResult.succeeded (d :: ds)
  | BkResult.condNoop ds => BkResult.condNoop (d :: ds)
  | BkResult.raised c ds => BkResult.raised c (d :: ds)

/-- `_execute_with_backoff` from attempt number `attempt` (1-based): a
`ConditionalCheckFailedException` returns as a logged no-op; a retryable code
below the attempt cap sleeps `base * 2^(attempt-1)` and retries; anything
else is re-raised. -/
def executeWithBackoff (outcome : Nat → Outcome) (maxAttempts : Nat) (base : ℚ)
    (attempt : Nat) : BkResult :=
  match outcome attempt with
  | Outcome.ok => BkResult.succeeded []
  | Outcome.err code =>
    if code = "ConditionalCheckFailedException" then BkResult.condNoop []
    else if h : code ∈ retryableErrors ∧ attempt < maxAttempts then
      withDelay (base * 2 ^ (attempt - 1))
        (executeWithBackoff outcome maxAttempts base (attempt + 1))
    else BkResult.raised code []
termination_by maxAttempts - attempt
decreasing_by omega

/-- The default attempt cap (`RC_DDB_MAX_ATTEMPTS`). -/
def rcDdbMaxAttempts : Nat := 5

/-- The delay schedule of a run that retries from attempt 1 to the cap. -/
theorem executeWithBackoff_all_fail (c : String) (base : ℚ)
    (hc : c ∈ retryableErrors) (hccf : c ≠ "ConditionalCheckFailedException")
    (outcome : Nat → Outcome) :
    ∀ (k attempt : Nat), 0 < attempt → attempt + k = rcDdbMaxAttempts →
      (∀ i, attempt ≤ i → i ≤ rcDdbMaxAttempts → outcome i = Outcome.err c) →
      executeWithBackoff outcome rcDdbMaxAttempts base attempt
        = BkResult.raised c ((List.range k).map
            (fun j => base * 2 ^ (attempt + j - 1))) := by
  intro k
  induction k with
  | zero =>
    intro attempt hpos hsum hout
    have hatt : attempt = rcDdbMaxAttempts := by omega
    rw [executeWithBackoff]
    rw [hout attempt (le_refl _) (by omega)]
    dsimp only
    rw [if_neg (by intro hcc; exact hccf hcc)]
    rw [dif_neg (by intro hcontra; omega)]
    simp
  | succ k ih =>
    intro attempt hpos hsum hout
    rw [executeWithBackoff]
    rw [hout attempt (le_refl _) (by omega)]
    dsimp only
    rw [if_neg (by intro hcc; exact hccf hcc)]
    rw [dif_pos ⟨hc, by omega⟩]
    rw [ih (attempt + 1) (by omega) (by omega)
      (fun i hi1 hi2 => hout i (by omega) hi2)]
    simp only [withDelay]
    congr 1
    have h0 : (List.range (k + 1)).map (fun j => base * 2 ^ (attempt + j - 1))
        = base * 2 ^ (attempt - 1)
          :: (List.range k).map (fun j => base * 2 ^ (attempt + 1 + j - 1)) := by
      rw [List.range_succ_eq_map, List.map_cons, List.map_map]
      congr 1
      refine List.map_congr_left ?_
      intro j hj
      simp only [Function.comp_apply, Nat.succ_eq_add_one]
      rw [show attempt + (j + 1) - 1 = attempt + 1 + j - 1 from by omega]
    rw [h0]

/-- C8 as stated is false on one point: a `ConditionalCheckFailedException`
has a code outside the transient-error set, yet it is not raised on first
occurrence — `_execute_with_backoff` swallows it and returns as a successful
no-op. -/
theorem claim_C8_counterexample :
    "ConditionalCheckFailedException" ∉ retryableErrors ∧
      executeWithBackoff (fun _ => Outcome.err "ConditionalCheckFailedException")
          rcDdbMaxAttempts (1 / 2) 1
        = BkResult.condNoop [] := by
  constructor
  · decide
  · rw [executeWithBackoff]
    dsimp only
    rw [if_pos rfl]

/-- C8 amended. A transient-coded error is retried with delay
`base * 2^(attempt-1)` up to the cap of 5 attempts and then raised; an error
whose code is outside the transient set is raised immediately on first
occurrence — except a conditional-check failure, which completes as a
successful no-op. -/
theorem claim_C8_retry_policy (outcome : Nat → Outcome) (c : String) (base : ℚ) :
    (c ∈ retryableErrors → c ≠ "ConditionalCheckFailedException" →
      (∀ i, 1 ≤ i → i ≤ rcDdbMaxAttempts → outcome i = Outcome.err c) →
      executeWithBackoff outcome rcDdbMaxAttempts base 1
        = BkResult.raised c
            [base * 2 ^ (0 : Nat), base * 2 ^ (1 : Nat),
             base * 2 ^ (2 : Nat), base * 2 ^ (3 : Nat)]) ∧
    (outcome 1 = Outcome.err c → c ∉ retryableErrors →
      c ≠ "ConditionalCheckFailedException" →
      executeWithBackoff outcome rcDdbMaxAttempts base 1 = BkResult.raised c []) ∧
    (outcome 1 = Outcome.err "ConditionalCheckFailedException" →
      executeWithBackoff outcome rcDdbMaxAttempts base 1 = BkResult.condNoop []) := by
  refine ⟨?_, ?_, ?_⟩
  · intro hc hccf hout
    rw [executeWithBackoff_all_fail c base hc hccf outcome 4 1 (by omega) (by rfl) hout]
    congr 1

  · intro hout hnr hccf
    rw [executeWithBackoff, hout]
    dsimp only
    rw [if_neg (by intro hcc; exact hccf hcc)]
    rw [dif_neg (by intro hcontra; exact hnr hcontra.1)]
  · intro hout
    rw [executeWithBackoff, hout]
    dsimp only
    rw [if_pos rfl]

theorem claim_C8_witness :
    (executeWithBackoff (fun _ => Outcome.err "ThrottlingException")
        rcDdbMaxAttempts (1 / 2) 1
      = BkResult.raised "ThrottlingException"
          [(1 : ℚ) / 2 * 2 ^ (0 : Nat), 1 / 2 * 2 ^ (1 : Nat),
           1 / 2 * 2 ^ (2 : Nat), 1 / 2 * 2 ^ (3 : Nat)]) ∧
    (executeWithBackoff (fun _ => Outcome.err "ValidationException")
        rcDdbMaxAttempts (1 / 2) 1
      = BkResult.raised "ValidationException" []) ∧
    (executeWithBackoff (fun _ => Outcome.err "ConditionalCheckFailedException")
        rcDdbMaxAttempts (1 / 2) 1
      = BkResult.condNoop []) :=
  ⟨(claim_C8_retry_policy (fun _ => Outcome.err "ThrottlingException")
      "ThrottlingException" (1 / 2)).1 (by decide) (by decide) (fun i h1 h2 => rfl),
   (claim_C8_retry_policy (fun _ => Outcome.err "ValidationException")
      "ValidationException" (1 / 2)).2.1 rfl (by decide) (by decide),
   (claim_C8_retry_policy (fun _ => Outcome.err "ConditionalCheckFailedException")
      "ConditionalCheckFailedException" (1 / 2)).2.2 rfl⟩

/-! ### Signature verification (`src/releasecopilot/jira/signature.py`)

`verify_signature` recomputes the HMAC-SHA256 digest of the body and compares
it (via the constant-time `hmac.compare_digest`) with the decoded header. For
a fixed secret and body that digest is one fixed 32-byte value, so it enters
the model as the parameter `expected`; everything the module itself does —
decoding the header and comparing — is embedded below.
-/

def isB64Char (c : Char) : Bool :=
  (65 ≤ c.toNat && c.toNat ≤ 90) || (97 ≤ c.toNat && c.toNat ≤ 122) ||
    (48 ≤ c.toNat && c.toNat ≤ 57) || c = '+' || c = '/'

def b64CharVal (c : Char) : Nat :=
  if 65 ≤ c.toNat ∧ c.toNat ≤ 90 then c.toNat - 65
  else if 97 ≤ c.toNat ∧ c.toNat ≤ 122 then c.toNat - 71
  else if 48 ≤ c.toNat ∧ c.toNat ≤ 57 then c.toNat + 4
  else if c = '+' then 62
  else 63

/-- Decode whole base64 quads; the terminal quad may carry one or two `=`
padding characters (`binascii.a2b_base64` on validated input with padding at
the end, as compliant encoders produce it; a length that is not a multiple of
four is invalid padding). -/
def decodeQuads : List Char → Option (List Nat)
  | [] => some []
  | a :: b :: c :: d :: rest =>
    if a = '=' ∨ b = '=' then none
    else if c = '=' then
      if d = '=' ∧ rest = [] then some [b64CharVal a * 4 + b64CharVal b / 16] else none
    else if d = '=' then
      if rest = [] then
        some [b64CharVal a * 4 + b64CharVal b / 16,
              b64CharVal b % 16 * 16 + b64CharVal c / 4]
      else none
    else
      match decodeQuads rest with
      | none => none
      | some bs =>
        some ((b64CharVal a * 4 + b64CharVal b / 16)
          :: (b64CharVal b % 16 * 16 + b64CharVal c / 4)
          :: (b64CharVal c % 4 * 64 + b64CharVal d) :: bs)
  | _ => none

/-- `base64.b64decode(value, validate=True)`: any character outside the
alphabet (plus `=`) raises `binascii.Error`; otherwise decode. -/
def b64decodeValidate (s : String) : Option (List Nat) :=
  let cs := s.toList
  if cs.any (fun c => !(isB64Char c || c == '=')) then none
  else decodeQuads cs

def hexDigitChar (n : Nat) : Char :=
  match n with
  | 0 => '0' | 1 => '1' | 2 => '2' | 3 => '3' | 4 => '4'
  | 5 => '5' | 6 => '6' | 7 => '7' | 8 => '8' | 9 => '9'
  | 10 => 'a' | 11 => 'b' | 12 => 'c' | 13 => 'd' | 14 => 'e'
  | _ => 'f'

/-- The lowercase hex encoding of a byte string (`bytes.hex()`, the form a
sender puts in the signature header). -/
def hexEncode (bytes : List Nat) : String :=
  String.mk (bytes.flatMap (fun b => [hexDigitChar (b / 16), hexDigitChar (b % 16)]))

def hexDigitVal (c : Char) : Option Nat :=
  if 48 ≤ c.toNat ∧ c.toNat ≤ 57 then some (c.toNat - 48)
  else if 97 ≤ c.toNat ∧ c.toNat ≤ 102 then some (c.toNat - 87)
  else if 65 ≤ c.toNat ∧ c.toNat ≤ 70 then some (c.toNat - 55)
  else none

/-- `bytes.fromhex` on a whitespace-free string: two hex digits per byte. -/
def fromHex : List Char → Option (List Nat)
  | [] => some []
  | a :: b :: rest =>
    (match hexDigitVal a, hexDigitVal b, fromHex rest with
     | some x, some y, some bs => some ((x * 16 + y) :: bs)
     | _, _, _ => none)
  | _ => none

/-- `_decode_signature`: strip, reject empty, try base64 with validation, and
only if that raises fall back to hex. -/
def decodeSignature (value : String) : Option (List Nat) :=
  let candidate := pyStrip value.toList
  if candidate = [] then none
  else
    match b64decodeValidate (String.mk candidate) with
    | some bs => some bs
    | none => fromHex candidate

/-- `verify_signature` for a configured (non-empty) secret: decode the header
and compare with the expected digest (`hmac.compare_digest`, a constant-time
equality). A missing header is rejected before decoding. -/
def verifyAgainstDigest (expected : List Nat) (signature : Option String) : Bool :=
  match signature with
  | none => false
  | some s =>
    match decodeSignature s with
    | none => false
    | some provided => provided == expected

theorem hexDigitChar_b64 (n : Nat) :
    isB64Char (hexDigitChar n) = true ∧ hexDigitChar n ≠ '=' ∧
      isWsCh (hexDigitChar n) = false := by
  unfold hexDigitChar
  rcases n with _|_|_|_|_|_|_|_|_|_|_|_|_|_|_|n <;> simp <;> decide

theorem hexEncode_chars (d : List Nat) :
    ∀ c ∈ (hexEncode d).toList,
      isB64Char c = true ∧ c ≠ '=' ∧ isWsCh c = false := by
  intro c hc
  have : c ∈ d.flatMap (fun b => [hexDigitChar (b / 16), hexDigitChar (b % 16)]) := hc
  rw [List.mem_flatMap] at this
  obtain ⟨b, _, hcb⟩ := this
  rcases List.mem_cons.mp hcb with h1 | h1
  · rw [h1]; exact hexDigitChar_b64 (b / 16)
  · rcases List.mem_cons.mp h1 with h2 | h2
    · rw [h2]; exact hexDigitChar_b64 (b % 16)
    · simp at h2

theorem hexEncode_length (d : List Nat) : (hexEncode d).toList.length = 2 * d.length := by
  show (d.flatMap (fun b => [hexDigitChar (b / 16), hexDigitChar (b % 16)])).length
      = 2 * d.length
  induction d with
  | nil => rfl
  | cons b bs ih =>
    simp only [List.flatMap_cons, List.length_append, ih, List.length_cons,
      List.length_nil]
    omega

theorem dropWhile_eq_self_of_all {p : Char → Bool} {l : List Char}
    (h : ∀ c ∈ l, p c = false) : l.dropWhile p = l := by
  match l with
  | [] => rfl
  | c :: rest => simp [List.dropWhile_cons, h c (by simp)]

theorem pyStrip_eq_self {l : List Char} (h : ∀ c ∈ l, isWsCh c = false) :
    pyStrip l = l := by
  unfold pyStrip
  rw [dropWhile_eq_self_of_all h]
  rw [dropWhile_eq_self_of_all (fun c hc => h c (List.mem_reverse.mp hc))]
  exact List.reverse_reverse l

theorem decodeQuads_length :
    ∀ (n : Nat) (cs : List Char), cs.length ≤ n →
      (∀ c ∈ cs, isB64Char c = true ∧ c ≠ '=') → cs.length % 4 = 0 →
      ∃ bs, decodeQuads cs = some bs ∧ bs.length = 3 * (cs.length / 4) := by
  intro n
  induction n with
  | zero =>
    intro cs hlen _ _
    have : cs = [] := List.length_eq_zero.mp (Nat.le_zero.mp hlen)
    subst this
    exact ⟨[], rfl, rfl⟩
  | succ n ih =>
    intro cs hlen hchars hmod
    match cs with
    | [] => exact ⟨[], rfl, rfl⟩
    | [a] => simp at hmod
    | [a, b] => simp at hmod
    | [a, b, c] => simp at hmod
    | a :: b :: c :: d :: rest =>
      have ha := hchars a (by simp)
      have hb := hchars b (by simp)
      have hc := hchars c (by simp)
      have hd := hchars d (by simp)
      simp only [List.length_cons] at hlen hmod
      obtain ⟨bs, hbs, hbslen⟩ := ih rest (by omega)
        (fun x hx => hchars x (by simp [hx])) (by omega)
      have hq : decodeQuads (a :: b :: c :: d :: rest)
          = some ((b64CharVal a * 4 + b64CharVal b / 16)
              :: (b64CharVal b % 16 * 16 + b64CharVal c / 4)
              :: (b64CharVal c % 4 * 64 + b64CharVal d) :: bs) := by
        unfold decodeQuads
        rw [if_neg ?_, if_neg hc.2, if_neg hd.2, hbs]
        rintro (h | h)
        · exact ha.2 h
        · exact hb.2 h
      refine ⟨_, hq, ?_⟩
      simp only [List.length_cons, hbslen]
      omega

/-- C3 is wrong about hex: every 64-character hex string is itself valid
base64 (all characters are in the alphabet and the length is a multiple of
four), so `_decode_signature` decodes it as base64 into 48 bytes, the
comparison with the 32-byte digest fails, and a correct hex-encoded signature
is always rejected. -/
theorem claim_C3_hex_signature_rejected (d : List Nat) (hlen : d.length = 32) :
    verifyAgainstDigest d (some (hexEncode d)) = false := by
  have hchars := hexEncode_chars d
  have hlen64 : (hexEncode d).toList.length = 64 := by
    rw [hexEncode_length, hlen]
  have hnoinvalid :
      ((hexEncode d).toList.any (fun c => !(isB64Char c || c == '='))) = false := by
    rw [List.any_eq_false]
    intro c hcmem
    simp [(hchars c hcmem).1]
  obtain ⟨bs, hbs, hbslen⟩ := decodeQuads_length (hexEncode d).toList.length
    (hexEncode d).toList (le_refl _) (fun c hc => ⟨(hchars c hc).1, (hchars c hc).2.1⟩)
    (by rw [hlen64])
  have hstrip : pyStrip (hexEncode d).toList = (hexEncode d).toList :=
    pyStrip_eq_self (fun c hc => (hchars c hc).2.2)
  have hb64 : b64decodeValidate (String.mk ((hexEncode d).toList)) = some bs := by
    show (if ((hexEncode d).toList.any (fun c => !(isB64Char c || c == '='))) = true
        then none else decodeQuads (hexEncode d).toList) = some bs
    rw [hnoinvalid]
    simpa using hbs
  have hdec : decodeSignature (hexEncode d) = some bs := by
    show (if pyStrip (hexEncode d).toList = [] then none
        else match b64decodeValidate (String.mk (pyStrip (hexEncode d).toList)) with
          | some bs2 => some bs2
          | none => fromHex (pyStrip (hexEncode d).toList)) = some bs
    rw [hstrip]
    rw [if_neg (by intro h; rw [h] at hlen64; simp at hlen64)]
    rw [hb64]
  show (match decodeSignature (hexEncode d) with
    | none => false
    | some provided => provided == d) = false
  rw [hdec]
  show (bs == d) = false
  have hne : bs ≠ d := by
    intro hcontra
    rw [hcontra, hlen] at hbslen
    rw [hlen64] at hbslen
    omega
  exact beq_eq_false_iff_ne.mpr hne

/-- HMAC-SHA256 of body `\x7b"hello": "world"\x7d` under secret `topsecret`
(the repository's own signature-test vector), as digest bytes. -/
def sampleDigest : List Nat :=
  [157, 119, 234, 156, 69, 197, 37, 214, 22, 208, 251, 85, 97, 49, 93, 25,
   15, 249, 233, 192, 38, 94, 77, 112, 150, 74, 62, 229, 62, 246, 175, 111]

theorem claim_C3_witness :
    sampleDigest.length = 32 ∧
      verifyAgainstDigest sampleDigest (some (hexEncode sampleDigest)) = false :=
  ⟨by decide, claim_C3_hex_signature_rejected sampleDigest (by decide)⟩

/-- The base64 half of the contract does hold: the base64 encoding of the
sample digest verifies (so the failure is specific to hex). -/
theorem base64_signature_accepted_sample :
    verifyAgainstDigest sampleDigest
        (some "nXfqnEXFJdYW0PtVYTFdGQ/56cAmXk1wlko+5T72r28=") = true := by
  decide

/-! ### The SQLite commit store (`src/releasecopilot/ingest/storage.py`)

`bitbucket_commits` is keyed by `hash`. Python `None` is SQL `NULL`; `branch`
is `str | None` by construction, `modified_on` arrives from payloads as
arbitrary JSON and is `JsonVal` with `null` for `NULL`.
-/

def isNull : JsonVal → Bool
  | JsonVal.null => true
  | _ => false

/-- `CommitUpsert` (the normalized record handed to storage). -/
structure CommitUpsert where
  hash : String
  repository : String
  authorship : Option String
  files_changed : List String
  story_keys : List String
  source : String
  branch : Option String
  modified_on : JsonVal

/-- One stored row. The JSON-encoded `files_changed`/`story_keys` TEXT
columns are kept as the encoded lists (`json.dumps` is injective and this
layer never reads them back). -/
structure SqliteRow where
  hash : String
  repository : String
  authorship : Option String
  files_changed : List String
  story_keys : List String
  source : String
  branch : Option String
  modified_on : JsonVal
  last_seen_at : String

/-- The parameter tuple built per record: `files_changed` and `story_keys`
deduplicated in first-seen order (`list(dict.fromkeys(...))`), `last_seen_at`
from `observed_at`. -/
def toRow (observedIso : String) (r : CommitUpsert) : SqliteRow :=
  { hash := r.hash, repository := r.repository, authorship := r.authorship
    files_changed := appendUnique [] r.files_changed
    story_keys := appendUnique [] r.story_keys
    source := r.source, branch := r.branch, modified_on := r.modified_on
    last_seen_at := observedIso }

/-- `ON CONFLICT(hash) DO UPDATE SET ...`: every column takes the excluded
(incoming) value except `branch = COALESCE(excluded.branch, old.branch)` and
`modified_on = COALESCE(excluded.modified_on, old.modified_on)`. -/
def mergeRow (old p : SqliteRow) : SqliteRow :=
  { p with
    branch := match p.branch with | some b => some b | none => old.branch
    modified_on := if isNull p.modified_on then old.modified_on else p.modified_on }

/-- One `INSERT ... ON CONFLICT(hash) DO UPDATE` execution. -/
def upsertOne (t : List SqliteRow) (p : SqliteRow) : List SqliteRow :=
  if t.any (fun r => r.hash == p.hash) then
    t.map (fun old => if old.hash == p.hash then mergeRow old p else old)
  else t ++ [p]

/-- `CommitStorage.upsert_many`: an empty record list returns 0 before any
database access; otherwise `executemany` applies the upserts in order and the
count of payload tuples is returned. -/
def upsert_many (t : List SqliteRow) (records : List CommitUpsert) (observedIso : String) :
    List SqliteRow × Nat :=
  if records.isEmpty then (t, 0)
  else
    let payloads := records.map (toRow observedIso)
    (payloads.foldl upsertOne t, payloads.length)

def lookupHash (t : List SqliteRow) (h : String) : Option SqliteRow :=
  t.find? (fun r => r.hash == h)

/-- C10. The bulk upsert returns the number of input records, whatever mix of
inserts and replacements happened, and an empty input returns 0 leaving the
database untouched. -/
theorem claim_C10_upsert_count (t : List SqliteRow) (records : List CommitUpsert)
    (observedIso : String) :
    (upsert_many t records observedIso).2 = records.length ∧
      (upsert_many t [] observedIso).1 = t := by
  constructor
  · by_cases h : records.isEmpty
    · rw [List.isEmpty_iff.mp h]
      rfl
    · simp [upsert_many, h]
  · rfl

/-- First delivery of commit `h1`, carrying branch `main`. -/
def c2first : CommitUpsert :=
  { hash := "h1", repository := "repo", authorship := none, files_changed := []
    story_keys := [], source := "scan", branch := some "main"
    modified_on := JsonVal.null }

/-- A re-observation of `h1` carrying branch `dev`. -/
def c2second : CommitUpsert :=
  { c2first with source := "webhook", branch := some "dev" }

/-- C2 as stated is false: a stored non-null branch is NOT preserved when the
incoming record carries a non-null branch — `COALESCE(excluded.branch, ...)`
lets the incoming value win. Re-upserting `h1` with branch `dev` over a
stored `main` leaves `dev`, not `main`. -/
theorem claim_C2_counterexample :
    (lookupHash (upsert_many (upsert_many [] [c2first] "t1").1 [c2second] "t2").1
        "h1").map SqliteRow.branch = some (some "dev") ∧
      (some "dev" : Option String) ≠ some "main" := by
  constructor
  · decide
  · decide

theorem find?_cons_pos (pred : SqliteRow → Bool) (x : SqliteRow) (xs : List SqliteRow)
    (h : pred x = true) : (x :: xs).find? pred = some x :=
  List.find?_cons_of_pos xs h

theorem find?_cons_neg (pred : SqliteRow → Bool) (x : SqliteRow) (xs : List SqliteRow)
    (h : pred x = false) : (x :: xs).find? pred = xs.find? pred :=
  List.find?_cons_of_neg xs (by simp [h])

theorem lookupHash_map_merge (p : SqliteRow) :
    ∀ (t : List SqliteRow) (old : SqliteRow), lookupHash t p.hash = some old →
      lookupHash (t.map (fun o => if o.hash == p.hash then mergeRow o p else o)) p.hash
        = some (mergeRow old p) := by
  intro t
  induction t with
  | nil => intro old h; simp [lookupHash] at h
  | cons x xs ih =>
    intro old h
    by_cases hx : (x.hash == p.hash) = true
    · rw [lookupHash, find?_cons_pos (fun r => r.hash == p.hash) x xs hx] at h
      have hold : x = old := Option.some.inj h
      subst hold
      rw [List.map_cons, if_pos hx]
      rw [lookupHash]
      have hself : ((mergeRow x p).hash == p.hash) = true := by
        show (p.hash == p.hash) = true
        simp
      rw [find?_cons_pos (fun r => r.hash == p.hash) (mergeRow x p) _ hself]
    · have hx2 : (x.hash == p.hash) = false := by simpa using hx
      rw [lookupHash, find?_cons_neg (fun r => r.hash == p.hash) x xs hx2] at h
      rw [List.map_cons, if_neg (by simp [hx2])]
      rw [lookupHash,
        find?_cons_neg (fun r => r.hash == p.hash) x _ hx2]
      exact ih old h

/-- C2 amended. Re-upserting an already-stored hash overwrites every column
from the incoming record except `branch` and `modified_on`, which take the
incoming value when it is non-null and keep the stored value when the
incoming value is null; in particular a null incoming branch never erases a
stored branch. -/
theorem claim_C2_merge_on_conflict (t : List SqliteRow) (old : SqliteRow)
    (rec : CommitUpsert) (obs : String)
    (h : lookupHash t rec.hash = some old) :
    lookupHash (upsert_many t [rec] obs).1 rec.hash
        = some (mergeRow old (toRow obs rec)) ∧
      (mergeRow old (toRow obs rec)).repository = rec.repository ∧
      (mergeRow old (toRow obs rec)).authorship = rec.authorship ∧
      (mergeRow old (toRow obs rec)).files_changed = appendUnique [] rec.files_changed ∧
      (mergeRow old (toRow obs rec)).story_keys = appendUnique [] rec.story_keys ∧
      (mergeRow old (toRow obs rec)).source = rec.source ∧
      (mergeRow old (toRow obs rec)).last_seen_at = obs ∧
      (rec.branch = none → (mergeRow old (toRow obs rec)).branch = old.branch) ∧
      (∀ b, rec.branch = some b → (mergeRow old (toRow obs rec)).branch = some b) ∧
      (isNull rec.modified_on = true →
        (mergeRow old (toRow obs rec)).modified_on = old.modified_on) ∧
      (isNull rec.modified_on = false →
        (mergeRow old (toRow obs rec)).modified_on = rec.modified_on) := by
  refine ⟨?_, rfl, rfl, rfl, rfl, rfl, rfl, ?_, ?_, ?_, ?_⟩
  · have hany : (t.any (fun r => r.hash == rec.hash)) = true := by
      rw [List.any_eq_true]
      refine ⟨old, List.mem_of_find?_eq_some h, ?_⟩
      have := List.find?_some h
      simpa using this
    show lookupHash (upsertOne t (toRow obs rec)) rec.hash
        = some (mergeRow old (toRow obs rec))
    unfold upsertOne
    have hany2 : (t.any fun r => r.hash == (toRow obs rec).hash) = true := hany
    rw [if_pos hany2]
    exact lookupHash_map_merge (toRow obs rec) t old h
  · intro hb
    show (match (toRow obs rec).branch with
      | some b => some b | none => old.branch) = old.branch
    show (match rec.branch with | some b => some b | none => old.branch) = old.branch
    rw [hb]
  · intro b hb
    show (match rec.branch with | some b2 => some b2 | none => old.branch) = some b
    rw [hb]
  · intro hn
    show (if isNull (toRow obs rec).modified_on then old.modified_on
      else (toRow obs rec).modified_on) = old.modified_on
    have : isNull (toRow obs rec).modified_on = true := hn
    rw [if_pos this]
  · intro hn
    show (if isNull (toRow obs rec).modified_on then old.modified_on
      else (toRow obs rec).modified_on) = rec.modified_on
    have h2 : isNull (toRow obs rec).modified_on = false := hn
    rw [if_neg (by simp [h2])]
    rfl

theorem claim_C2_witness :
    lookupHash (upsert_many [toRow "t1" c2first] [c2second] "t2").1 c2second.hash
      = some (mergeRow (toRow "t1" c2first) (toRow "t2" c2second)) :=
  (claim_C2_merge_on_conflict [toRow "t1" c2first] (toRow "t1" c2first) c2second "t2"
    rfl).1

/-! ### `normalize_payload` (`src/releasecopilot/jira/webhook_parser.py`)

`_parse_timestamp` is pure stdlib `datetime` reformatting whose output string
the verified code only transports into items; like the clock (`nowIso`) it
enters the model as a parameter `parseTs`. Every raising path of
`normalize_payload` is embedded.
-/

def normalize_payload (parseTs : JsonVal → String) (nowIso : String)
    (event : List (String × JsonVal)) : Except String JiraWebhookEvent :=
  let event_type :=
    String.mk (pyStrip (pyStrVal (pyOr (jget event "webhookEvent") (JsonVal.str ""))).toList)
  if event_type = "" then Except.error "Missing webhookEvent"
  else
    match jget event "issue" with
    | JsonVal.obj issue =>
      let issue_key := String.mk (pyStrip (pyStrVal
        (pyOr (jget issue "key") (pyOr (jget issue "id") (JsonVal.str "")))).toList)
      if issue_key = "" then Except.error "Missing issue key"
      else
        let issue_id := pyStrVal (pyOr (jget issue "id") (JsonVal.str issue_key))
        let fields := match jget issue "fields" with
          | JsonVal.obj f => f
          | _ => ([] : List (String × JsonVal))
        let updated_source := pyOr (jget fields "updated")
          (pyOr (jget fields "created") (pyOr (jget event "timestamp") (JsonVal.str nowIso)))
        let changelog := match jget event "changelog" with
          | JsonVal.obj c => c
          | _ => ([] : List (String × JsonVal))
        Except.ok
          { event_type := event_type
            issue_key := issue_key
            issue_id := issue_id
            updated_at := parseTs updated_source
            issue := JsonVal.obj issue
            fields := fields
            changelog := changelog
            delivery_id := (firstTruthy event
              ["deliveryId", "delivery_id", "eventId", "event_id"]).map pyStrVal
            timestamp := match jget event "timestamp" with
              | JsonVal.null => none
              | v => some (parseTs v)
            payload := event }
    | _ => Except.error "Missing issue payload"

/-! ### The Jira handler after authentication -/

def allowedEvents : List String :=
  ["jira:issue_created", "jira:issue_updated", "jira:issue_deleted"]

structure HandlerResult where
  status : Nat
  ignored : Bool
  table : IssueTable

/-- `handler` after the signature check: `none` for `parsed` models
`_parse_body` raising `ValueError` (bad encoding or bad JSON); then
`normalize_payload`, the supported-event gate, and the apply step
(`_handle_delete` / `_handle_upsert`) against the store model. Store
transport errors are the backoff model's concern and cannot occur here. -/
def handlerAfterAuth (parseTs : JsonVal → String) (nowIso : String)
    (parsed : Option (List (String × JsonVal))) (t : IssueTable) : HandlerResult :=
  match parsed with
  | none => ⟨400, false, t⟩
  | some payload =>
    match normalize_payload parseTs nowIso payload with
    | Except.error _ => ⟨400, false, t⟩
    | Except.ok ev =>
      if ev.event_type ∉ allowedEvents then ⟨202, true, t⟩
      else if ev.event_type = "jira:issue_deleted" then
        if ev.issue_key = "" then ⟨400, false, t⟩
        else
          let updated_at := match ev.timestamp with
            | some ts => if ts = "" then nowIso else ts
            | none => nowIso
          let idk := computeIdempotencyKey ev ev.issue_key updated_at
          ⟨202, false, (markTombstone t ev ev.issue_key updated_at idk nowIso).1⟩
      else
        if ev.issue_key = "" then ⟨400, false, t⟩
        else
          let updated_at := if ev.updated_at = "" then nowIso else ev.updated_at
          let idk := computeIdempotencyKey ev ev.issue_key updated_at
          ⟨202, false, (putItemWithRetry t (buildUpsertItem ev updated_at idk nowIso)).1⟩

/-! ### Bitbucket webhooks (`src/releasecopilot/ingest/bitbucket_webhooks.py`) -/

def supportedBitbucketEvents : List String :=
  ["repo:push", "pullrequest:created", "pullrequest:updated", "pullrequest:fulfilled"]

/-- The first payload value under the given keys that is a string
(`_resolve_event_key` accepts any string, empty included). -/
def firstStringVal (fields : List (String × JsonVal)) : List String → Option String
  | [] => none
  | k :: ks =>
    match jget fields k with
    | JsonVal.str s => some s
    | _ => firstStringVal fields ks

def resolveEventKey (payload : List (String × JsonVal)) : String :=
  (firstStringVal payload ["event_key", "eventKey", "event", "eventType"]).getD "unknown"

/-- The module's own `extract_story_keys`: no strip, skip falsy sources,
uppercase, find all matches, append unseen. -/
def bitbucketExtract (message branch pr_title : Option String) : List String :=
  [message, branch, pr_title].foldl
    (fun ordered source =>
      match source with
      | none => ordered
      | some s =>
        if s = "" then ordered
        else appendUnique ordered ((findAll (pyUpper s.toList)).map String.mk))
    []

/-- `_normalize_files`: path strings of dict entries, deduplicated in order
(non-list input is falsy-or-raising in Python and contributes nothing). -/
def normalizeFiles (entries : JsonVal) : List String :=
  match entries with
  | JsonVal.arr items =>
    appendUnique []
      (items.filterMap (fun entry =>
        match entry with
        | JsonVal.obj e =>
          (match jget e "path" with
           | JsonVal.str p => some p
           | _ => none)
        | _ => none))
  | _ => []

/-- The first string value under the given keys that is non-empty
(`_resolve_repository` / `_resolve_branch` loops). -/
def firstNonemptyString (fields : List (String × JsonVal)) : List String → Option String
  | [] => none
  | k :: ks =>
    match jget fields k with
    | JsonVal.str s => if s ≠ "" then some s else firstNonemptyString fields ks
    | _ => firstNonemptyString fields ks

/-- `_authorship`: `author.raw` when a non-empty string, else
`author.user.display_name` when a non-empty string. -/
def authorshipUser (author : List (String × JsonVal)) : Option String :=
  match jget author "user" with
  | JsonVal.obj user =>
    (match jget user "display_name" with
     | JsonVal.str s => if s ≠ "" then some s else none
     | _ => none)
  | _ => none

def authorship (commit : List (String × JsonVal)) : Option String :=
  match jget commit "author" with
  | JsonVal.obj author =>
    (match jget author "raw" with
     | JsonVal.str s => if s ≠ "" then some s else authorshipUser author
     | _ => authorshipUser author)
  | _ => none

/-- `_resolve_branch`: `change.new.name`, else `change.old.name`, each only
when the pointer is a dict and the name a non-empty string. -/
def resolveBranchAt (change : List (String × JsonVal)) (key : String) : Option String :=
  match jget change key with
  | JsonVal.obj pointer =>
    (match jget pointer "name" with
     | JsonVal.str s => if s ≠ "" then some s else none
     | _ => none)
  | _ => none

def resolveBranch (change : List (String × JsonVal)) : Option String :=
  match resolveBranchAt change "new" with
  | some s => some s
  | none => resolveBranchAt change "old"

/-- `_resolve_repository`: the first non-empty string among
`full_name`/`name`/`slug` of a dict `repository`, else `"unknown"`. -/
def resolveRepository (event : List (String × JsonVal)) : String :=
  match jget event "repository" with
  | JsonVal.obj repo => (firstNonemptyString repo ["full_name", "name", "slug"]).getD "unknown"
  | _ => "unknown"

/-- The shared inner loop of `handle_push`/`handle_pull_request`: walk commit
dicts, skip entries without a non-empty string hash or with a hash already
seen, and build `CommitUpsert`s. `mkKeys` supplies the story keys from the
commit's message. -/
def collectCommits (repository : String) (branch : Option String)
    (mkKeys : List (String × JsonVal) → List String)
    (hashOf : List (String × JsonVal) → JsonVal)
    (commits : List JsonVal) (seen : List String) (acc : List CommitUpsert) :
    List CommitUpsert × List String :=
  match commits with
  | [] => (acc, seen)
  | commit :: rest =>
    match commit with
    | JsonVal.obj cm =>
      (match hashOf cm with
       | JsonVal.str h =>
        if h = "" then collectCommits repository branch mkKeys hashOf rest seen acc
        else if h ∈ seen then collectCommits repository branch mkKeys hashOf rest seen acc
        else
          collectCommits repository branch mkKeys hashOf rest (h :: seen)
            (acc ++ [{ hash := h, repository := repository
                       authorship := authorship cm
                       files_changed := normalizeFiles (jget cm "files")
                       story_keys := mkKeys cm
                       source := "webhook", branch := branch
                       modified_on := pyOr (jget cm "date") (jget cm "timestamp") }])
       | _ => collectCommits repository branch mkKeys hashOf rest seen acc)
    | _ => collectCommits repository branch mkKeys hashOf rest seen acc

/-- `handle_push`: one pass over `push.changes`, resolving the branch per
change, with the seen-hash set shared across changes. -/
def handlePush (event : List (String × JsonVal)) : List CommitUpsert :=
  let repository := resolveRepository event
  let push := match pyOr (jget event "push") (JsonVal.obj []) with
    | JsonVal.obj p => p
    | _ => ([] : List (String × JsonVal))
  let changes := match jget push "changes" with
    | JsonVal.arr cs => cs
    | _ => ([] : List JsonVal)
  (changes.foldl
    (fun (st : List CommitUpsert × List String) change =>
      match change with
      | JsonVal.obj ch =>
        let branch := resolveBranch ch
        let commits := match jget ch "commits" with
          | JsonVal.arr cs => cs
          | _ => ([] : List JsonVal)
        collectCommits repository branch
          (fun cm => bitbucketExtract (asOptStr (jget cm "message")) branch none)
          (fun cm => jget cm "hash") commits st.2 st.1
      | _ => st)
    (([], []) : List CommitUpsert × List String)).1

/-- `handle_pull_request`: branch from `pullrequest.source.branch.name`,
title from `pullrequest.title`, commits from `pullrequest.commits`; the hash
may fall back to `id`. -/
def handlePullRequest (event : List (String × JsonVal)) : List CommitUpsert :=
  let repository := resolveRepository event
  let pull_request := match pyOr (jget event "pullrequest") (JsonVal.obj []) with
    | JsonVal.obj pr => pr
    | _ => ([] : List (String × JsonVal))
  let branch0 : JsonVal :=
    match jget pull_request "source" with
    | JsonVal.obj src =>
      (match pyOr (jget src "branch") (JsonVal.obj []) with
       | JsonVal.obj br => jget br "name"
       | _ => JsonVal.null)
    | _ => JsonVal.null
  let branch : Option String := match branch0 with
    | JsonVal.str s => some s
    | _ => none
  let title : Option String := match jget pull_request "title" with
    | JsonVal.str s => some s
    | _ => none
  let commits := match jget pull_request "commits" with
    | JsonVal.arr cs => cs
    | _ => ([] : List JsonVal)
  (collectCommits repository branch
    (fun cm => bitbucketExtract (asOptStr (jget cm "message")) branch title)
    (fun cm => pyOr (jget cm "hash") (jget cm "id")) commits [] []).1

structure BitbucketProcessResult where
  status : Nat
  ok : Bool
  ignored : Bool
  ingested : Nat
  storage : List SqliteRow

/-- `BitbucketWebhookHandler.process` past the secret check. -/
def bitbucketProcessBody (payload : List (String × JsonVal))
    (storage : List SqliteRow) (observedIso : String) : BitbucketProcessResult :=
  let event_key := resolveEventKey payload
  if event_key ∉ supportedBitbucketEvents then
    ⟨202, true, true, 0, storage⟩
  else
    let commits := if event_key = "repo:push" then handlePush payload
      else handlePullRequest payload
    if commits.isEmpty then ⟨202, true, false, 0, storage⟩
    else ⟨202, true, false, commits.length,
      (upsert_many storage commits observedIso).1⟩

/-- `BitbucketWebhookHandler.process`: exact-match shared-secret header check
(skipped when no non-empty secret is configured), then the event dispatch. -/
def bitbucketProcess (secret : Option String) (headerSecret : Option String)
    (payload : List (String × JsonVal)) (storage : List SqliteRow)
    (observedIso : String) : BitbucketProcessResult :=
  match secret with
  | some s =>
    if s = "" then bitbucketProcessBody payload storage observedIso
    else if headerSecret = some s then bitbucketProcessBody payload storage observedIso
    else ⟨401, false, false, 0, storage⟩
  | none => bitbucketProcessBody payload storage observedIso

/-- C9. For both webhook handlers: an event type outside the supported set is
acknowledged with 202 and an ignored indication, with no store write; a Jira
payload that fails to parse or to normalize into the canonical issue shape is
rejected with 400, with no store write. -/
theorem claim_C9_ignored_and_malformed (parseTs : JsonVal → String) (nowIso : String)
    (t : IssueTable) :
    (handlerAfterAuth parseTs nowIso none t = ⟨400, false, t⟩) ∧
    (∀ payload e, normalize_payload parseTs nowIso payload = Except.error e →
      handlerAfterAuth parseTs nowIso (some payload) t = ⟨400, false, t⟩) ∧
    (∀ payload ev, normalize_payload parseTs nowIso payload = Except.ok ev →
      ev.event_type ∉ allowedEvents →
      handlerAfterAuth parseTs nowIso (some payload) t = ⟨202, true, t⟩) ∧
    (∀ (payload : List (String × JsonVal)) (storage : List SqliteRow)
        (observedIso : String),
      resolveEventKey payload ∉ supportedBitbucketEvents →
      bitbucketProcess none none payload storage observedIso
        = ⟨202, true, true, 0, storage⟩) := by
  refine ⟨rfl, ?_, ?_, ?_⟩
  · intro payload e h
    show (match normalize_payload parseTs nowIso payload with
      | Except.error _ => (⟨400, false, t⟩ : HandlerResult)
      | Except.ok ev => _) = ⟨400, false, t⟩
    rw [h]
  · intro payload ev h hev
    show (match normalize_payload parseTs nowIso payload with
      | Except.error _ => (⟨400, false, t⟩ : HandlerResult)
      | Except.ok ev => _) = ⟨202, true, t⟩
    rw [h]
    simp only [hev, not_false_eq_true, if_true]
  · intro payload storage observedIso h
    show bitbucketProcessBody payload storage observedIso = ⟨202, true, true, 0, storage⟩
    unfold bitbucketProcessBody
    rw [if_pos h]

theorem claim_C9_witness :
    (handlerAfterAuth (fun _ => "TS") "NOW"
        (some [("webhookEvent", JsonVal.str "jira:version_released"),
               ("issue", JsonVal.obj [("key", JsonVal.str "APP-1")])]) []
      = ⟨202, true, []⟩) ∧
    (handlerAfterAuth (fun _ => "TS") "NOW" (some []) [] = ⟨400, false, []⟩) ∧
    (bitbucketProcess none none [("event_key", JsonVal.str "repo:updated")] [] "NOW"
      = ⟨202, true, true, 0, []⟩) :=
  ⟨(claim_C9_ignored_and_malformed (fun _ => "TS") "NOW" []).2.2.1
      [("webhookEvent", JsonVal.str "jira:version_released"),
       ("issue", JsonVal.obj [("key", JsonVal.str "APP-1")])]
      { event_type := "jira:version_released", issue_key := "APP-1", issue_id := "APP-1"
        updated_at := "TS", issue := JsonVal.obj [("key", JsonVal.str "APP-1")]
        fields := [], changelog := [], delivery_id := none, timestamp := none
        payload := [("webhookEvent", JsonVal.str "jira:version_released"),
                    ("issue", JsonVal.obj [("key", JsonVal.str "APP-1")])] }
      rfl (by decide),
   (claim_C9_ignored_and_malformed (fun _ => "TS") "NOW" []).2.1 []
      "Missing webhookEvent" rfl,
   (claim_C9_ignored_and_malformed (fun _ => "TS") "NOW" []).2.2.2
      [("event_key", JsonVal.str "repo:updated")] [] "NOW" (by decide)⟩

end RC
